import Mathlib

/-!
# Verification of the github-explorer-mcp repository ingestion pipeline

This file is a shallow embedding, in Lean 4, of the core of the
`github-explorer-mcp` TypeScript repository: the repository ingestion
pipeline (filesystem scanner, content extractor, snapshot cache,
working-copy cloner, text search, reference differ, and the `GitIngester`
facade), together with theorems settling the specification claims about it.

Conventions of the embedding:
* JavaScript strings are modelled by Lean `String` (the inputs of interest
  are ASCII, where JS UTF-16 code-unit operations and Lean code-point
  operations agree).
* Asynchronous filesystem walks become pure functions over an explicit
  filesystem tree (`FSEntry`), with `readdir` returning entries in the
  stored order (the source only sorts where it calls `.sort()`).
* Fallible operations (git commands, file reads) are modelled by explicit
  `Except`/`Option` values or by environment records of Booleans, and
  `try`/`catch` becomes a `match` on those values.
* JS `Number` values that the code compares with `>`/`>=` are modelled by
  `Nat`/`Int` as appropriate.
-/

set_option maxRecDepth 100000

namespace GHExplorer

/-! ## JavaScript string primitives -/

/-- The ASCII whitespace characters recognised by JavaScript's `\s` class and
`String.prototype.trim` (space, tab, line feed, carriage return, vertical tab,
form feed).  The inputs in this development are ASCII, so the additional
Unicode space characters that JS also trims never occur. -/
def jsWhite (c : Char) : Bool :=
  c = ' ' || c = '\t' || c = '\n' || c = '\r' || c = '\x0b' || c = '\x0c'

/-- `String.prototype.trim` on a character list. -/
def jsTrimL (s : List Char) : List Char :=
  ((s.dropWhile jsWhite).reverse.dropWhile jsWhite).reverse

/-- `String.prototype.trim`. -/
def jsTrim (s : String) : String :=
  ⟨jsTrimL s.data⟩

/-- Decidable substring test (`String.prototype.includes` shape), used to
state "the output contains …" properties. -/
def segOccursIn (pat : List Char) : List Char → Bool
  | [] => pat.isEmpty
  | c :: rest => pat.isPrefixOf (c :: rest) || segOccursIn pat rest

/-- String-level wrapper of `segOccursIn`. -/
def strOccursIn (pat s : String) : Bool :=
  segOccursIn pat.data s.data

/-- `String.prototype.startsWith` (code-point implementation, so that
concrete instances compute by kernel reduction). -/
def strStartsWith (s pre : String) : Bool :=
  pre.data.isPrefixOf s.data

/-- `String.prototype.endsWith`. -/
def strEndsWith (s suf : String) : Bool :=
  suf.data.isSuffixOf s.data

/-! ## The filesystem model

A directory's contents are a list of entries; `fs.readdir` returns the names
in the stored order.  A regular file carries its `stat.size` (byte size) and
the result of `fs.readFile(..., 'utf-8')`: `some text`, or `none` when the
read fails (the scanner logs and skips such a file). -/

inductive FSEntry where
  | file (name : String) (size : Nat) (content : Option String)
  | dir (name : String) (entries : List FSEntry)
deriving Repr

/-- The entry's name as returned by `fs.readdir`. -/
def FSEntry.name : FSEntry → String
  | .file n _ _ => n
  | .dir n _ => n

mutual
/-- Size measure used for termination of the walks. -/
def FSEntry.sz : FSEntry → Nat
  | .file _ _ _ => 1
  | .dir _ es => 1 + szList es

/-- Size measure for entry lists. -/
def szList : List FSEntry → Nat
  | [] => 0
  | e :: es => FSEntry.sz e + szList es
end

theorem FSEntry.sz_pos (e : FSEntry) : 0 < e.sz := by
  cases e <;> simp [FSEntry.sz]

theorem szList_append (a b : List FSEntry) : szList (a ++ b) = szList a + szList b := by
  induction a with
  | nil => simp [szList]
  | cons e es ih => simp [szList, ih]; omega

theorem szList_filter_le (p : FSEntry → Bool) (es : List FSEntry) :
    szList (es.filter p) ≤ szList es := by
  induction es with
  | nil => simp [szList]
  | cons x xs ih =>
    have := FSEntry.sz_pos x
    by_cases hx : p x = true <;> simp [hx, szList] <;> omega

theorem szList_perm {a b : List FSEntry} (h : a.Perm b) : szList a = szList b := by
  induction h with
  | nil => rfl
  | cons x _ ih => simp [szList, ih]
  | swap x y l => simp [szList]; omega
  | trans _ _ ih₁ ih₂ => omega

/-- `path.join(relativePath, entry)` as used by the walks (`relativePath` is
empty or a normal relative path, `entry` a plain name). -/
def joinRel (rel entry : String) : String :=
  if rel = "" then entry else rel ++ "/" ++ entry

/-! ## Filesystem Scanner (`RepositoryAnalyzer`, src file `repository-analyzer.ts`) -/

/-- Decimal rendering of a natural number (kernel-computable `toString`). -/
def natDigitsAux : Nat → Nat → List Char
  | 0, _ => []
  | fuel + 1, n =>
    if n < 10 then [Nat.digitChar n]
    else natDigitsAux fuel (n / 10) ++ [Nat.digitChar (n % 10)]

/-- Decimal rendering of a natural number. -/
def natToString (n : Nat) : String :=
  ⟨natDigitsAux (n + 1) n⟩

/-- The 50-`=` delimiter line written by the scanner. -/
def marker : String :=
  ⟨List.replicate 50 '='⟩

/-- One content block of ConcatenatedContent, as written by `processFile`. -/
def fileBlock (relPath content : String) : String :=
  marker ++ "\nFile: " ++ relPath ++ "\n" ++ marker ++ "\n" ++ content ++ "\n\n"

/-- `(size / 1024 / 1024).toFixed(2)`.

`size` is an integer below `2^53`, so `size / 1024 / 1024` is the exact dyadic
rational `size / 2^20` (dividing an integer double mantissa by a power of two
is exact), and `toFixed(2)` rounds it to the nearest hundredth, ties towards
the larger value (ECMAScript `Number.prototype.toFixed`: "If there are two
such n, pick the larger n").  Hence the rendered value is
`⌊(100 * size + 2^19) / 2^20⌋` hundredths. -/
def toFixed2MB (size : Nat) : String :=
  let n := (100 * size + 524288) / 1048576
  let frac := n % 100
  natToString (n / 100) ++ "." ++ (if frac < 10 then "0" else "") ++ natToString frac

/-- The placeholder block written for a file whose `stat.size` exceeds the
1 MiB ceiling. -/
def largeBlock (relPath : String) (size : Nat) : String :=
  marker ++ "\nFile: " ++ relPath ++ "\n" ++ marker ++ "\n" ++
    "[File too large to display: " ++ toFixed2MB size ++ " MB]\n\n"

/-- `RepositoryAnalyzer.readRepositoryContent`'s inner `processDirectory`:
walk the entries in `readdir` order (this walk does not sort), skipping
`.git`-prefixed names; emit a placeholder block for files over
`1024 * 1024` bytes, a content block for readable files, and nothing for a
file whose read fails.

The `fuel` argument only makes the recursion structural (so that concrete
instances compute by kernel reduction); every recursive call strictly
decreases `szList`, so with initial fuel `szList es + 1` the fuel-exhausted
branch is unreachable. -/
def processDir : Nat → List FSEntry → String → String
  | 0, _, _ => ""
  | _ + 1, [], _ => ""
  | fuel + 1, e :: rest, rel =>
    (if strStartsWith e.name ".git" then ""
     else
       match e with
       | .dir n sub => processDir fuel sub (joinRel rel n)
       | .file n size oc =>
         let p := joinRel rel n
         if 1048576 < size then largeBlock p size
         else
           match oc with
           | some c => fileBlock p c
           | none => "") ++ processDir fuel rest rel

/-- `RepositoryAnalyzer.readRepositoryContent`. -/
def readRepositoryContent (es : List FSEntry) : String :=
  processDir (szList es + 1) es ""

/-- The flat list of (relative path, size, read result) triples of the
non-`.git` files encountered by `processDir`, in walk order (same fuel
discipline as `processDir`). -/
def walkFiles : Nat → List FSEntry → String → List (String × Nat × Option String)
  | 0, _, _ => []
  | _ + 1, [], _ => []
  | fuel + 1, e :: rest, rel =>
    (if strStartsWith e.name ".git" then []
     else
       match e with
       | .dir n sub => walkFiles fuel sub (joinRel rel n)
       | .file n size oc => [(joinRel rel n, size, oc)]) ++ walkFiles fuel rest rel

/-- The file walk of the scanner at adequate fuel. -/
def scanWalk (es : List FSEntry) : List (String × Nat × Option String) :=
  walkFiles (szList es + 1) es ""

/-- The block that `processDir` emits for one walked file. -/
def blockFor : String × Nat × Option String → String
  | (p, size, oc) =>
    if 1048576 < size then largeBlock p size
    else
      match oc with
      | some c => fileBlock p c
      | none => ""

/-- Concatenation of a list of strings. -/
def strConcat (l : List String) : String :=
  l.foldr (· ++ ·) ""

@[simp] theorem strConcat_nil : strConcat [] = "" := rfl

@[simp] theorem strConcat_cons (s : String) (l : List String) :
    strConcat (s :: l) = s ++ strConcat l := rfl

theorem strConcat_append (a b : List String) :
    strConcat (a ++ b) = strConcat a ++ strConcat b := by
  induction a with
  | nil => simp
  | cons s l ih => simp [ih, String.append_assoc]

theorem processDir_eq_blocks :
    ∀ (fuel : Nat) (es : List FSEntry) (rel : String), szList es < fuel →
      processDir fuel es rel = strConcat ((walkFiles fuel es rel).map blockFor)
  | 0, es, _, h => absurd h (by omega)
  | fuel + 1, [], rel, _ => rfl
  | fuel + 1, e :: rest, rel, h => by
    have hrest : szList rest < fuel := by
      have := FSEntry.sz_pos e
      simp only [szList] at h
      omega
    simp only [processDir, walkFiles]
    by_cases hg : strStartsWith e.name ".git"
    · simpa [hg] using processDir_eq_blocks fuel rest rel hrest
    · cases e with
      | dir n sub =>
        have hsub : szList sub < fuel := by
          simp only [szList, FSEntry.sz] at h
          omega
        simp only [FSEntry.name] at hg
        simp only [FSEntry.name, if_neg hg, List.map_append, strConcat_append]
        rw [processDir_eq_blocks fuel sub _ hsub, processDir_eq_blocks fuel rest rel hrest]
      | file n size oc =>
        simp only [FSEntry.name] at hg
        simp only [FSEntry.name, if_neg hg, List.map_append, strConcat_append]
        rw [processDir_eq_blocks fuel rest rel hrest]
        cases oc with
        | some c => simp [blockFor]
        | none => simp [blockFor]

/-! ## Directory tree rendering (`RepositoryAnalyzer.generateDirectoryTree`) -/

/-- Lexicographic comparison of character lists by code point — the order
`Array.prototype.sort`'s default comparator induces on the ASCII strings in
scope (JS compares UTF-16 code units, which agree with code points there). -/
def charsLe : List Char → List Char → Bool
  | [], _ => true
  | _ :: _, [] => false
  | a :: as, b :: bs =>
    if a.toNat < b.toNat then true
    else if b.toNat < a.toNat then false
    else charsLe as bs

/-- Default JS string comparison. -/
def strLe (a b : String) : Bool :=
  charsLe a.data b.data

/-- The comparison passed to the sort of `readdir` names.  JS `sort` is a
stable sort; it is modelled by the (stable, kernel-computable)
`List.insertionSort`. -/
def nameLe (a b : FSEntry) : Prop :=
  strLe a.name b.name = true

instance : DecidableRel nameLe :=
  fun a b => inferInstanceAs (Decidable (strLe a.name b.name = true))

mutual
/-- Fueled body of `RepositoryAnalyzer.generateDirectoryTree`: `readdir`,
sort the names, then render each entry in order.  Note that the source
computes `isLast` from the index in the *sorted, unfiltered* list, before
`.git`-prefixed entries are skipped.  Fuel only makes the mutual recursion
structural; every call strictly decreases `2 * szList + 1`, so with adequate
initial fuel the exhausted branch is unreachable. -/
def genTreeF : Nat → List FSEntry → String → String
  | 0, _, _ => ""
  | fuel + 1, es, pfx => genRowF fuel (List.insertionSort nameLe es) pfx

/-- The body of the `for` loop of `generateDirectoryTree`, over the sorted
entry list. -/
def genRowF : Nat → List FSEntry → String → String
  | 0, _, _ => ""
  | _ + 1, [], _ => ""
  | fuel + 1, e :: rest, pfx =>
    (if strStartsWith e.name ".git" then ""
     else
       let isLast := rest.isEmpty
       let cur := if isLast then "└── " else "├── "
       let nxt := if isLast then "    " else "│   "
       pfx ++ cur ++ e.name ++ "\n" ++
         (match e with
          | .dir _ sub => genTreeF fuel sub (pfx ++ nxt)
          | .file _ _ _ => "")) ++ genRowF fuel rest pfx
end

/-- `RepositoryAnalyzer.generateDirectoryTree` at adequate fuel. -/
def generateDirectoryTree (es : List FSEntry) (pfx : String) : String :=
  genTreeF (2 * szList es + 1) es pfx

/-- Fueled body of `RepositoryAnalyzer.countFiles`: recursive count of
non-`.git` regular files. -/
def countFilesF : Nat → List FSEntry → Nat
  | 0, _ => 0
  | _ + 1, [] => 0
  | fuel + 1, e :: rest =>
    (if strStartsWith e.name ".git" then 0
     else
       match e with
       | .dir _ sub => countFilesF fuel sub
       | .file _ _ _ => 1) + countFilesF fuel rest

/-- `RepositoryAnalyzer.countFiles` at adequate fuel. -/
def countFiles (es : List FSEntry) : Nat :=
  countFilesF (szList es + 1) es

mutual
/-- Modelled from the spec (§4.3, §8): tree rendering in which the entries of
each level are first stripped of `.git`-prefixed names, then sorted, and the
*last rendered* entry of the level gets the `└── ` connector and a bar-free
`    ` continuation.  This is the comparison point for claim C7; it differs
from `generateDirectoryTree` only in computing `isLast` after the exclusion
instead of before it.  Same fuel discipline as `genTreeF`. -/
def specTreeF : Nat → List FSEntry → String → String
  | 0, _, _ => ""
  | fuel + 1, es, pfx =>
    specRowF fuel (List.insertionSort nameLe (es.filter (fun e => !strStartsWith e.name ".git"))) pfx

/-- Rendering of one level for `specTreeF`. -/
def specRowF : Nat → List FSEntry → String → String
  | 0, _, _ => ""
  | _ + 1, [], _ => ""
  | fuel + 1, e :: rest, pfx =>
    (let isLast := rest.isEmpty
     let cur := if isLast then "└── " else "├── "
     let nxt := if isLast then "    " else "│   "
     pfx ++ cur ++ e.name ++ "\n" ++
       (match e with
        | .dir _ sub => specTreeF fuel sub (pfx ++ nxt)
        | .file _ _ _ => "")) ++ specRowF fuel rest pfx
end

/-- The spec-side tree rendering at adequate fuel. -/
def specTreeRender (es : List FSEntry) (pfx : String) : String :=
  specTreeF (2 * szList es + 1) es pfx

/-! ## Content Extractor (`RepositoryAnalyzer.extractFilesContent`)

The extractor scans the blob with three regex patterns in order, keeping the
first pattern that produces any match:

1. `/={50}\nFile: ([^\n]+)\n={50}/g`
2. `/={10,}\nFile: ([^\n]+)\n={10,}/g`
3. `/=+\s*File:\s*([^\n]+)\s*\n=+/g`

Each pattern is compiled here to an explicit matcher on `List Char`.
`exec` with `lastIndex = i` finds the leftmost match at an index `≥ i`; the
extractor's `while` loop walks successive matches, taking the text between
the end of one match and the start of the next as the block body. -/

/-- The 50-`=` delimiter as a character list. -/
def markerL : List Char :=
  List.replicate 50 '='

/-- Pattern 1 anchored at the start of `s`: `={50}\nFile: ([^\n]+)\n={50}`.
Returns (length of the matched text, the captured filename).  The greedy
`[^\n]+` capture cannot backtrack usefully (every shorter capture would
require a `\n` at a position known to be non-`\n`), so it is exactly
`takeWhile (· ≠ '\n')`. -/
def matchAt1 (s : List Char) : Option (Nat × List Char) :=
  if s.take 50 = markerL then
    let s1 := s.drop 50
    if s1.take 7 = "\nFile: ".data then
      let s2 := s1.drop 7
      let nm := s2.takeWhile (fun c => c ≠ '\n')
      if nm.isEmpty then none
      else
        let s3 := s2.drop nm.length
        if s3.take 1 = ['\n'] then
          if (s3.drop 1).take 50 = markerL then some (108 + nm.length, nm) else none
        else none
    else none
  else none

/-- Leftmost match of pattern 1 in `s`: `(index, match length, capture)`. -/
def findMatch1 : List Char → Option (Nat × Nat × List Char)
  | [] => none
  | c :: rest =>
    match matchAt1 (c :: rest) with
    | some (len, nm) => some (0, len, nm)
    | none => (findMatch1 rest).map (fun r => (r.1 + 1, r.2))

theorem matchAt1_bound {s : List Char} {len : Nat} {nm : List Char}
    (h : matchAt1 s = some (len, nm)) : len ≤ s.length ∧ 0 < len := by
  unfold matchAt1 at h
  by_cases h1 : s.take 50 = markerL
  · rw [if_pos h1] at h
    by_cases h2 : (s.drop 50).take 7 = "\nFile: ".data
    · rw [if_pos h2] at h
      set s2 := (s.drop 50).drop 7 with hs2
      set nm' := s2.takeWhile (fun c => c ≠ '\n') with hnm
      by_cases h3 : nm'.isEmpty = true
      · rw [if_pos h3] at h
        exact Option.noConfusion h
      · rw [if_neg h3] at h
        by_cases h4 : (s2.drop nm'.length).take 1 = ['\n']
        · rw [if_pos h4] at h
          by_cases h5 : ((s2.drop nm'.length).drop 1).take 50 = markerL
          · rw [if_pos h5] at h
            have hp := Option.some.inj h
            have hlen : 108 + nm'.length = len := congrArg Prod.fst hp
            have e5 := congrArg List.length h5
            rw [List.length_take] at e5
            simp only [markerL, List.length_replicate, List.length_drop] at e5
            have hnmlen : nm'.length ≤ s2.length := by
              rw [hnm]
              exact (List.takeWhile_sublist _).length_le
            have hs2len : s2.length = s.length - 57 := by
              rw [hs2]; simp
            omega
          · rw [if_neg h5] at h
            exact Option.noConfusion h
        · rw [if_neg h4] at h
          exact Option.noConfusion h
    · rw [if_neg h2] at h
      exact Option.noConfusion h
  · rw [if_neg h1] at h
    exact Option.noConfusion h

theorem findMatch1_bound {s : List Char} {i len : Nat} {nm : List Char}
    (h : findMatch1 s = some (i, len, nm)) : i + len ≤ s.length ∧ 0 < len := by
  induction s generalizing i len nm with
  | nil => simp [findMatch1] at h
  | cons c rest ih =>
    cases hm : matchAt1 (c :: rest) with
    | some r =>
      obtain ⟨len', nm'⟩ := r
      simp only [findMatch1, hm, Option.some.injEq, Prod.mk.injEq] at h
      obtain ⟨hi, hlen, -⟩ := h
      have hb := matchAt1_bound hm
      simp only [List.length_cons] at *
      omega
    | none =>
      simp only [findMatch1, hm] at h
      cases hf : findMatch1 rest with
      | none => simp [hf] at h
      | some r =>
        obtain ⟨j, len', nm'⟩ := r
        rw [hf] at h
        simp only [Option.map_some', Option.some.injEq, Prod.mk.injEq] at h
        obtain ⟨hi, hlen, -⟩ := h
        have hb := ih hf
        simp only [List.length_cons]
        omega

/-- The extractor's `while` loop after the first match: `nm` is the current
block's captured filename, `rest` the text after the current match; each step
takes the body up to the next match (or the end) and continues there.  Every
match consumes at least one character (`findMatch1_bound`), so the fuel
`|rest| + 1` used by `parseBlocks1` is never exhausted; fuel only makes the
recursion structural. -/
def parseTail : Nat → List Char → List Char → List (List Char × List Char)
  | 0, _, _ => []
  | fuel + 1, nm, rest =>
    match findMatch1 rest with
    | none => [(jsTrimL nm, jsTrimL rest)]
    | some (j, len2, nm2) =>
      (jsTrimL nm, jsTrimL (rest.take j)) :: parseTail fuel nm2 (rest.drop (j + len2))

/-- All pattern-1 blocks of the blob: (trimmed filename, trimmed body). -/
def parseBlocks1 (s : List Char) : List (List Char × List Char) :=
  match findMatch1 s with
  | none => []
  | some (i, len, nm) => parseTail (s.length + 1) nm (s.drop (i + len))

/-- Length of the leading `=` run. -/
def eqRun (s : List Char) : Nat :=
  (s.takeWhile (fun c => c = '=')).length

/-- Length of the leading whitespace (`\s`) run. -/
def wsRun (s : List Char) : Nat :=
  (s.takeWhile jsWhite).length

/-- Pattern 2 anchored at the start of `s`: `={10,}\nFile: ([^\n]+)\n={10,}`.
Both `={10,}` quantifiers are greedy and cannot backtrack usefully (a shorter
run leaves an `=` where `\n` — or the end of the match — is required), so
each takes its full run, which must have length at least 10. -/
def matchAt2 (s : List Char) : Option (Nat × List Char) :=
  let r := eqRun s
  if r < 10 then none
  else
    let s1 := s.drop r
    if s1.take 7 = "\nFile: ".data then
      let s2 := s1.drop 7
      let nm := s2.takeWhile (fun c => c ≠ '\n')
      if nm.isEmpty then none
      else
        let s3 := s2.drop nm.length
        if s3.take 1 = ['\n'] then
          let r2 := eqRun (s3.drop 1)
          if r2 < 10 then none else some (r + 8 + nm.length + r2, nm)
        else none
    else none

/-- First `some` value of `f` along a list. -/
def firstSome {α β : Type} (f : α → Option β) : List α → Option β
  | [] => none
  | a :: rest =>
    match f a with
    | some b => some b
    | none => firstSome f rest

/-- `n, n-1, …, 0`. -/
def descRange (n : Nat) : List Nat :=
  (List.range (n + 1)).reverse

/-- `n, n-1, …, 1`. -/
def descRange1 (n : Nat) : List Nat :=
  ((List.range n).map (· + 1)).reverse

/-- Pattern 3 anchored at the start of `s`: `=+\s*File:\s*([^\n]+)\s*\n=+`,
with JS backtracking semantics.  The leading `=+` and the `\s*` before
`File:` cannot backtrack usefully (shortening them leaves a character that
the next piece cannot accept), so they take their full runs.  The `\s*`
before the capture, the greedy capture `([^\n]+)` and the `\s*` before the
final `\n` genuinely backtrack; greedy quantifiers prefer the longest
choice, with earlier quantifiers dominating, so the searches run over
descending lengths, outermost first. -/
def matchAt3 (s : List Char) : Option (Nat × List Char) :=
  let r := eqRun s
  if r = 0 then none
  else
    let s1 := s.drop r
    let a := wsRun s1
    if (s1.drop a).take 5 = "File:".data then
      let s2 := s1.drop (a + 5)
      firstSome (fun b =>
        let u := s2.drop b
        let cmax := (u.takeWhile (fun c => c ≠ '\n')).length
        if cmax = 0 then none
        else
          firstSome (fun c =>
            let v := u.drop c
            firstSome (fun d =>
              if (v.drop d).take 1 = ['\n'] then
                let e := eqRun ((v.drop d).drop 1)
                if e = 0 then none
                else some (r + a + 5 + b + c + d + 1 + e, u.take c)
              else none)
              (descRange (wsRun v)))
            (descRange1 cmax))
        (descRange (wsRun s2))
    else none

/-- Leftmost match of an anchored matcher, as in `findMatch1` (none of the
three patterns can match the empty suffix, so the scan stops before it). -/
def findMatchGen (m : List Char → Option (Nat × List Char)) : List Char → Option (Nat × Nat × List Char)
  | [] => none
  | c :: rest =>
    match m (c :: rest) with
    | some (len, nm) => some (0, len, nm)
    | none => (findMatchGen m rest).map (fun r => (r.1 + 1, r.2))

/-- Fuelled version of `parseTail` for patterns 2 and 3; every match of the
patterns consumes at least one character, so fuel `|s| + 1` is never
exhausted (running out of fuel corresponds to the JS loop not advancing,
which cannot happen for these patterns). -/
def parseTailGen (m : List Char → Option (Nat × List Char)) :
    Nat → List Char → List Char → List (List Char × List Char)
  | 0, _, _ => []
  | fuel + 1, nm, rest =>
    match findMatchGen m rest with
    | none => [(jsTrimL nm, jsTrimL rest)]
    | some (j, len2, nm2) =>
      (jsTrimL nm, jsTrimL (rest.take j)) :: parseTailGen m fuel nm2 (rest.drop (j + len2))

/-- All blocks of the blob for an anchored matcher. -/
def parseBlocksGen (m : List Char → Option (Nat × List Char)) (s : List Char) :
    List (List Char × List Char) :=
  match findMatchGen m s with
  | none => []
  | some (i, len, nm) => parseTailGen m (s.length + 1) nm (s.drop (i + len))

/-- All pattern-2 blocks. -/
def parseBlocks2 (s : List Char) : List (List Char × List Char) :=
  parseBlocksGen matchAt2 s

/-- All pattern-3 blocks. -/
def parseBlocks3 (s : List Char) : List (List Char × List Char) :=
  parseBlocksGen matchAt3 s

/-- `path.split('/').pop() || ''`: the segment after the last `/` (the whole
string when there is no `/`, and `''` for a trailing `/` — where `pop()`
returns `''` and the `|| ''` default coincides). -/
def basename (p : String) : String :=
  ⟨(p.data.reverse.takeWhile (fun c => c ≠ '/')).reverse⟩

/-- The three-tier path test of the matching loop:
`path === filename || basename === filename || path.endsWith('/' + filename)`. -/
def pathMatches (p fn : String) : Bool :=
  p = fn || basename p = fn || strEndsWith p ("/" ++ fn)

/-- Decimal parse of a property key (code-point implementation of
`String.toNat?`, so that concrete instances compute by kernel reduction). -/
def keyToNatQ (p : String) : Option Nat :=
  if p.data ≠ [] ∧ p.data.all (fun c => c.isDigit) then
    some (p.data.foldl (fun acc c => 10 * acc + (c.toNat - 48)) 0)
  else none

/-- Whether a JS object property key is an array index (a canonical numeric
string below `2^32 - 1`); such keys are enumerated first, in ascending
numeric order, by `Object.entries`. -/
def isArrayIndexKey (p : String) : Bool :=
  match keyToNatQ p with
  | none => false
  | some n => natToString n = p && n < 4294967295

/-- Value of an array-index key. -/
def keyValue (p : String) : Nat :=
  (keyToNatQ p).getD 0

/-- Deduplication keeping the first occurrence (JS object keys keep their
first insertion position). -/
def dedupFirst : List String → List String
  | [] => []
  | p :: rest => p :: (dedupFirst rest).filter (fun q => q ≠ p)

/-- The key order of `Object.entries(result)`: array-index keys ascending,
then the remaining keys in insertion (request) order. -/
def orderKeys (paths : List String) : List String :=
  let ks := dedupFirst paths
  List.insertionSort (fun a b => keyValue a ≤ keyValue b) (ks.filter isArrayIndexKey) ++
    ks.filter (fun p => !isArrayIndexKey p)

/-- The final value of `result[p]`: the body of the last parsed block whose
declared filename matches `p` (each matching block overwrites the previous
assignment). -/
def lastMatchFor (blocks : List (List Char × List Char)) (p : String) : Option String :=
  ((blocks.filter (fun bl => pathMatches p ⟨bl.1⟩)).getLast?).map (fun bl => ⟨bl.2⟩)

/-- One block of the extractor's re-serialized output. -/
def outBlock (p c : String) : String :=
  marker ++ "\nFile: " ++ p ++ "\n" ++ marker ++ "\n" ++ c

/-- The parsed block list of `extractFilesContent`: the first of the three
patterns that matches anywhere wins (`if (matched) break`). -/
def extractBlocks (s : List Char) : List (List Char × List Char) :=
  if parseBlocks1 s ≠ [] then parseBlocks1 s
  else if parseBlocks2 s ≠ [] then parseBlocks2 s
  else parseBlocks3 s

/-- The result-building loop: `if (concatenated) concatenated += '\n\n';
concatenated += block`. -/
def joinBlocks (l : List String) : String :=
  l.foldl (fun acc bl => (if acc = "" then acc else acc ++ "\n\n") ++ bl) ""

/-- `RepositoryAnalyzer.extractFilesContent`: a falsy (empty) blob yields
`""`; otherwise parse blocks, fill `result`, and re-serialize the non-null
entries in `Object.entries` order, separated by blank lines. -/
def extractFilesContent (content : String) (filePaths : List String) : String :=
  if content = "" then ""
  else
    let blocks := extractBlocks content.data
    joinBlocks
      ((orderKeys filePaths).filterMap
        (fun p => (lastMatchFor blocks p).map (outBlock p)))

/-! ## Round-trip analysis of the scanner/extractor ConcatenatedContent format

`chainL fl tail` is the character-level shape shared by the scanner blob
(`tail = ['\n','\n']`: every block ends with a blank line) and the
extractor's re-serialized output (`tail = []`: blank lines only between
blocks). -/

/-- The exact text matched by pattern 1 at the head of a well-formed block:
`={50}\nFile: <name>\n={50}` (length `108 + |name|`). -/
def headerL (p : List Char) : List Char :=
  markerL ++ "\nFile: ".data ++ p ++ '\n' :: markerL

/-- A sequence of blocks: each is `header ++ '\n' ++ body`, followed by a
blank line (`"\n\n"`) if another block follows, and by `tail` at the end. -/
def chainL : List (List Char × List Char) → List Char → List Char
  | [], _ => []
  | (p, c) :: rest, tail =>
    headerL p ++ '\n' :: (c ++ (if rest.isEmpty then tail else ['\n', '\n'])) ++ chainL rest tail

/-- Conditions under which a (filename, body) pair survives the extractor
unchanged: nonempty newline-free trim-invariant name, trim-invariant body,
and no 50-`=` delimiter run inside the body. -/
def goodPair (pr : List Char × List Char) : Prop :=
  pr.1 ≠ [] ∧ '\n' ∉ pr.1 ∧ jsTrimL pr.1 = pr.1 ∧ jsTrimL pr.2 = pr.2 ∧
    ∀ u v, pr.2 ≠ u ++ markerL ++ v

theorem headerL_length (p : List Char) : (headerL p).length = 108 + p.length := by
  simp [headerL, markerL]
  omega

theorem takeWhile_append_stop {q : Char → Bool} {p Y : List Char} {ch : Char}
    (hall : ∀ c ∈ p, q c = true) (hch : q ch = false) :
    (p ++ ch :: Y).takeWhile q = p := by
  induction p with
  | nil => simp [List.takeWhile_cons, hch]
  | cons a l ih =>
    simp only [List.cons_append, List.takeWhile_cons, hall a (by simp), if_true]
    rw [ih (fun c hc => hall c (by simp [hc]))]

theorem matchAt1_header (p rest : List Char) (hp : p ≠ []) (hn : '\n' ∉ p) :
    matchAt1 (headerL p ++ rest) = some (108 + p.length, p) := by
  have hshape : headerL p ++ rest =
      markerL ++ ("\nFile: ".data ++ (p ++ '\n' :: (markerL ++ rest))) := by
    simp [headerL, List.append_assoc]
  rw [hshape]
  unfold matchAt1
  dsimp only
  rw [List.take_left' (by simp [markerL]), if_pos rfl]
  rw [List.drop_left' (by simp [markerL])]
  rw [List.take_left' (by decide), if_pos rfl]
  rw [List.drop_left' (by decide)]
  have e3 : (p ++ '\n' :: (markerL ++ rest)).takeWhile (fun c => c ≠ '\n') = p := by
    refine takeWhile_append_stop (fun c hc => ?_) (by decide)
    simp only [decide_eq_true_eq, ne_eq]
    intro hcn; exact hn (hcn ▸ hc)
  rw [e3]
  have hne : p.isEmpty = false := by
    cases p with
    | nil => exact absurd rfl hp
    | cons a l => rfl
  rw [hne]
  simp only [Bool.false_eq_true, if_false]
  rw [List.drop_left' rfl]
  rw [show List.take 1 ('\n' :: (markerL ++ rest)) = ['\n'] from rfl, if_pos rfl]
  rw [show List.drop 1 ('\n' :: (markerL ++ rest)) = markerL ++ rest from rfl]
  rw [List.take_left' (by simp [markerL]), if_pos rfl]

theorem findMatch1_cons_some {c : Char} {rest : List Char} {len : Nat} {nm : List Char}
    (h : matchAt1 (c :: rest) = some (len, nm)) :
    findMatch1 (c :: rest) = some (0, len, nm) := by
  rw [findMatch1, h]

theorem findMatch1_header (p rest : List Char) (hp : p ≠ []) (hn : '\n' ∉ p) :
    findMatch1 (headerL p ++ rest) = some (0, 108 + p.length, p) := by
  have hm := matchAt1_header p rest hp hn
  have hshape : headerL p ++ rest =
      '=' :: (List.replicate 49 '=' ++ ("\nFile: ".data ++ (p ++ '\n' :: (markerL ++ rest)))) := by
    simp [headerL, markerL, List.replicate_succ, List.append_assoc]
  rw [hshape] at hm ⊢
  exact findMatch1_cons_some hm

theorem findMatch1_append {x s : List Char}
    (hnone : ∀ k, k < x.length → matchAt1 (x.drop k ++ s) = none) :
    findMatch1 (x ++ s) = (findMatch1 s).map (fun r => (r.1 + x.length, r.2)) := by
  induction x with
  | nil =>
    simp only [List.nil_append, List.length_nil]
    cases findMatch1 s with
    | none => simp
    | some r => obtain ⟨i, l, n⟩ := r; simp
  | cons c x' ih =>
    have h0 : matchAt1 (c :: (x' ++ s)) = none := by
      have := hnone 0 (by simp)
      simpa using this
    rw [List.cons_append, findMatch1, h0]
    rw [ih (fun k hk => by
      have := hnone (k + 1) (by simp only [List.length_cons]; omega)
      simpa using this)]
    cases findMatch1 s with
    | none => simp
    | some r =>
      obtain ⟨i, l, n⟩ := r
      simp only [Option.map_some', List.length_cons, Nat.add_assoc]

/-- A position strictly inside a delimiter-free segment `x`, followed by
either nothing or a fresh 50-`=` delimiter, cannot start a pattern-1 match:
an in-segment 50-`=` window would be a delimiter run inside `x`, and a
window crossing into the following delimiter is followed by more `=`
characters where the pattern requires `\nFile: `. -/
theorem matchAt1_none_mid {x s : List Char} {k : Nat} (hk : k < x.length)
    (hx : ∀ u v, x ≠ u ++ markerL ++ v)
    (hs : s = [] ∨ s.take 50 = markerL) :
    matchAt1 (x.drop k ++ s) = none := by
  by_cases h1 : (x.drop k ++ s).take 50 = markerL
  · by_cases hlen : k + 50 ≤ x.length
    · exfalso
      have hwin : (x.drop k ++ s).take 50 = (x.drop k).take 50 :=
        List.take_append_of_le_length (by simp [List.length_drop]; omega)
      have hsplit : x = x.take k ++ markerL ++ x.drop (k + 50) := by
        calc x = x.take k ++ x.drop k := (List.take_append_drop k x).symm
        _ = x.take k ++ ((x.drop k).take 50 ++ (x.drop k).drop 50) := by
              rw [List.take_append_drop 50 (x.drop k)]
        _ = x.take k ++ markerL ++ x.drop (k + 50) := by
              rw [← hwin, h1, List.drop_drop, List.append_assoc]
      exact hx _ _ hsplit
    · cases hs with
      | inl hsnil =>
        exfalso
        subst hsnil
        have hlt : (x.drop k ++ List.nil).length < 50 := by
          simp [List.length_drop]
          omega
        have := congrArg List.length h1
        rw [List.length_take] at this
        simp only [markerL, List.length_replicate] at this
        omega
      | inr hs50 =>
        unfold matchAt1
        rw [if_pos h1]
        dsimp only
        have hj1 : 1 ≤ k + 50 - x.length := by omega
        have hj2 : k + 50 - x.length ≤ 49 := by omega
        have hdrop : (x.drop k ++ s).drop 50 = s.drop (k + 50 - x.length) := by
          rw [List.drop_append_eq_append_drop]
          have : (x.drop k).drop 50 = [] := by
            apply List.drop_eq_nil_of_le
            simp [List.length_drop]
            omega
          rw [this, List.nil_append]
          congr 1
          simp [List.length_drop]
          omega
        have hsfull : s = markerL ++ s.drop 50 := by
          conv_lhs => rw [← List.take_append_drop 50 s]
          rw [hs50]
        have h50 : markerL.length = 50 := by simp [markerL]
        have hball : s.drop (k + 50 - x.length) =
            '=' :: (List.replicate (49 - (k + 50 - x.length)) '=' ++ s.drop 50) := by
          conv_lhs => rw [hsfull]
          rw [List.drop_append_eq_append_drop]
          rw [h50, show k + 50 - x.length - 50 = 0 from by omega, List.drop_zero]
          have hmdrop : markerL.drop (k + 50 - x.length) =
              '=' :: List.replicate (49 - (k + 50 - x.length)) '=' := by
            simp only [markerL, List.drop_replicate]
            rw [show 50 - (k + 50 - x.length) = (49 - (k + 50 - x.length)) + 1 from by omega]
            simp [List.replicate_succ]
          rw [hmdrop, List.cons_append]
        rw [hdrop, hball]
        rw [if_neg (by
          intro hcon
          have : '=' = '\n' := by
            have h7 : List.take 7 ('=' :: (List.replicate (49 - (k + 50 - x.length)) '=' ++ s.drop 50)) =
                '=' :: List.take 6 (List.replicate (49 - (k + 50 - x.length)) '=' ++ s.drop 50) := rfl
            rw [h7] at hcon
            exact (List.cons.injEq _ _ _ _ ▸ hcon).1
          exact absurd this (by decide))]
  · unfold matchAt1
    rw [if_neg h1]

theorem jsTrimL_white_cons {ch : Char} {x : List Char} (h : jsWhite ch = true) :
    jsTrimL (ch :: x) = jsTrimL x := by
  simp [jsTrimL, List.dropWhile_cons, h]

theorem jsTrimL_append_white {x : List Char} {ch : Char} (h : jsWhite ch = true) :
    jsTrimL (x ++ [ch]) = jsTrimL x := by
  unfold jsTrimL
  rw [List.dropWhile_append]
  by_cases he : (x.dropWhile jsWhite).isEmpty
  · simp only [he, if_true]
    have hx : x.dropWhile jsWhite = [] := by
      cases hx : x.dropWhile jsWhite with
      | nil => rfl
      | cons a l => rw [hx] at he; exact absurd he (by simp)
    rw [hx]
    simp [List.dropWhile_cons, h]
  · simp only [he, Bool.false_eq_true, if_false]
    rw [List.reverse_append]
    simp only [List.reverse_cons, List.reverse_nil, List.nil_append, List.singleton_append]
    rw [List.dropWhile_cons]
    simp [h]

theorem jsTrimL_region {c t : List Char} (hc : jsTrimL c = c)
    (ht : t = [] ∨ t = ['\n', '\n']) :
    jsTrimL ('\n' :: (c ++ t)) = c := by
  cases ht with
  | inl h0 =>
    subst h0
    rw [List.append_nil, jsTrimL_white_cons (by decide), hc]
  | inr h2 =>
    subst h2
    rw [jsTrimL_white_cons (by decide)]
    rw [show c ++ ['\n', '\n'] = (c ++ ['\n']) ++ ['\n'] from by simp]
    rw [jsTrimL_append_white (by decide), jsTrimL_append_white (by decide), hc]

theorem seg_split_of_append_cons {a b m : List Char} {ch : Char} (hm : ch ∉ m)
    (h : ∃ u v, a ++ ch :: b = u ++ m ++ v) :
    (∃ u v, a = u ++ m ++ v) ∨ (∃ u v, b = u ++ m ++ v) := by
  obtain ⟨u, v, he⟩ := h
  by_cases h1 : u.length + m.length ≤ a.length
  · left
    have htake : a.take (u.length + m.length) = u ++ m := by
      have t1 : (a ++ ch :: b).take (u.length + m.length) = a.take (u.length + m.length) :=
        List.take_append_of_le_length h1
      have t2 : (u ++ m ++ v).take (u.length + m.length) = u ++ m := by
        rw [List.append_assoc, List.take_append, List.take_left' rfl]
      rw [← t1, he, t2]
    exact ⟨u, a.drop (u.length + m.length), by
      conv_lhs => rw [← List.take_append_drop (u.length + m.length) a]
      rw [htake, List.append_assoc]⟩
  · by_cases h2 : a.length + 1 ≤ u.length
    · right
      have d1 : (a ++ ch :: b).drop (a.length + 1) = b := by
        rw [show a.length + 1 = a.length + 1 from rfl, List.drop_append]
        rfl
      have d2 : (u ++ m ++ v).drop (a.length + 1) =
          u.drop (a.length + 1) ++ m ++ v := by
        rw [List.append_assoc, List.drop_append_of_le_length h2, List.append_assoc]
      exact ⟨u.drop (a.length + 1), v, by rw [← d1, he, d2]⟩
    · exfalso
      have hu : u.length ≤ a.length := by omega
      have hlt : a.length - u.length < m.length := by omega
      have g1 : (a ++ ch :: b)[a.length]? = some ch := by
        rw [List.getElem?_append_right (by omega)]
        simp
      have g2 : (u ++ m ++ v)[a.length]? = m[a.length - u.length]? := by
        rw [List.append_assoc, List.getElem?_append_right hu]
        rw [List.getElem?_append_left (by omega)]
      have g3 : m[a.length - u.length]? = some ch := by rw [← g2, ← he, g1]
      exact hm (List.getElem?_mem g3)

theorem noMarker_region {c t : List Char} (hc : ∀ u v, c ≠ u ++ markerL ++ v)
    (ht : t = [] ∨ t = ['\n', '\n']) :
    ∀ u v, ('\n' :: (c ++ t)) ≠ u ++ markerL ++ v := by
  intro u v he
  have hnotin : '\n' ∉ markerL := by decide
  have hsplit := seg_split_of_append_cons (a := []) (b := c ++ t) hnotin
    ⟨u, v, by simpa using he⟩
  cases hsplit with
  | inl h =>
    obtain ⟨u', v', h⟩ := h
    have := congrArg List.length h
    simp only [List.length_nil, List.length_append, markerL, List.length_replicate] at this
    omega
  | inr h =>
    cases ht with
    | inl h0 =>
      subst h0
      obtain ⟨u', v', h⟩ := h
      rw [List.append_nil] at h
      exact hc _ _ h
    | inr h2 =>
      subst h2
      have hre : c ++ ['\n', '\n'] = c ++ '\n' :: ['\n'] := rfl
      rw [hre] at h
      have hsplit2 := seg_split_of_append_cons (a := c) (b := ['\n']) hnotin h
      cases hsplit2 with
      | inl h' =>
        obtain ⟨u', v', h'⟩ := h'
        exact hc _ _ h'
      | inr h' =>
        obtain ⟨u', v', h'⟩ := h'
        have := congrArg List.length h'
        simp only [List.length_cons, List.length_nil, List.length_append, markerL,
          List.length_replicate] at this
        omega

theorem parseTail_none {fuel : Nat} {nm rest : List Char} (h : findMatch1 rest = none) :
    parseTail (fuel + 1) nm rest = [(jsTrimL nm, jsTrimL rest)] := by
  simp only [parseTail, h]

theorem parseTail_some {fuel : Nat} {nm rest : List Char} {j len2 : Nat} {nm2 : List Char}
    (h : findMatch1 rest = some (j, len2, nm2)) :
    parseTail (fuel + 1) nm rest =
      (jsTrimL nm, jsTrimL (rest.take j)) :: parseTail fuel nm2 (rest.drop (j + len2)) := by
  simp only [parseTail, h]

theorem findMatch1_region {c t' s : List Char}
    (hcnm : ∀ u v, c ≠ u ++ markerL ++ v)
    (ht' : t' = [] ∨ t' = ['\n', '\n'])
    (hs : s = [] ∨ s.take 50 = markerL) :
    findMatch1 (('\n' :: (c ++ t')) ++ s) =
      (findMatch1 s).map (fun r => (r.1 + ('\n' :: (c ++ t')).length, r.2)) :=
  findMatch1_append (fun _ hk => matchAt1_none_mid hk (noMarker_region hcnm ht') hs)

theorem parseBlocks1_some {s : List Char} {i len : Nat} {nm : List Char}
    (h : findMatch1 s = some (i, len, nm)) :
    parseBlocks1 s = parseTail (s.length + 1) nm (s.drop (i + len)) := by
  unfold parseBlocks1
  rw [h]

theorem chainL_head50 (fl : List (List Char × List Char)) (tail : List Char) :
    chainL fl tail = [] ∨ (chainL fl tail).take 50 = markerL := by
  cases fl with
  | nil => left; rfl
  | cons pr fl' =>
    right
    obtain ⟨p, c⟩ := pr
    rw [chainL, List.append_assoc]
    rw [show headerL p = markerL ++ ("\nFile: ".data ++ (p ++ '\n' :: markerL)) from by
      simp [headerL, List.append_assoc]]
    rw [List.append_assoc, List.take_left' (by simp [markerL])]

theorem parseTail_chain (fl : List (List Char × List Char)) (p c : List Char)
    (tail : List Char) (fuel : Nat)
    (hfuel : (('\n' :: (c ++ (if fl.isEmpty then tail else ['\n', '\n']))) ++
      chainL fl tail).length < fuel)
    (htail : tail = [] ∨ tail = ['\n', '\n'])
    (hpc : goodPair (p, c)) (hg : ∀ pr ∈ fl, goodPair pr) :
    parseTail fuel p
        (('\n' :: (c ++ (if fl.isEmpty then tail else ['\n', '\n']))) ++ chainL fl tail) =
      (p, c) :: fl := by
  induction fl generalizing p c fuel with
  | nil =>
    obtain ⟨f, rfl⟩ : ∃ f, fuel = f + 1 := ⟨fuel - 1, by omega⟩
    simp only [List.isEmpty_nil, if_true, chainL, List.append_nil]
    obtain ⟨hp1, hp2, hp3, hc4, hc5⟩ := hpc
    have hnone : findMatch1 ('\n' :: (c ++ tail)) = none := by
      have := findMatch1_region (s := []) hc5 htail (Or.inl rfl)
      simpa using this
    rw [parseTail_none hnone, hp3, jsTrimL_region hc4 htail]
  | cons qr fl' ih =>
    obtain ⟨q, d⟩ := qr
    obtain ⟨hp1, hp2, hp3, hc4, hc5⟩ := hpc
    have hgq := hg (q, d) (by simp)
    obtain ⟨hq1, hq2, hq3, hd4, hd5⟩ := hgq
    simp only [List.isEmpty_cons, if_false, Bool.false_eq_true] at hfuel ⊢
    obtain ⟨f, rfl⟩ : ∃ f, fuel = f + 1 := ⟨fuel - 1, by omega⟩
    set R := '\n' :: (c ++ ['\n', '\n']) with hR
    have hchain : chainL ((q, d) :: fl') tail =
        headerL q ++ (('\n' :: (d ++ (if fl'.isEmpty then tail else ['\n', '\n']))) ++ chainL fl' tail) := by
      rw [chainL, List.append_assoc]
    have hfm : findMatch1 (R ++ chainL ((q, d) :: fl') tail) =
        some (R.length, 108 + q.length, q) := by
      rw [findMatch1_region hc5 (Or.inr rfl) (chainL_head50 _ _)]
      rw [hchain, findMatch1_header q _ hq1 hq2]
      simp [hR]
    rw [parseTail_some hfm]
    have htake : (R ++ chainL ((q, d) :: fl') tail).take R.length = R := List.take_left _ _
    have hdrop : (R ++ chainL ((q, d) :: fl') tail).drop (R.length + (108 + q.length)) =
        ('\n' :: (d ++ (if fl'.isEmpty then tail else ['\n', '\n']))) ++ chainL fl' tail := by
      rw [List.drop_append, hchain, List.drop_left' (headerL_length q)]
    have hfuel' :
        ((('\n' :: (d ++ (if fl'.isEmpty then tail else ['\n', '\n']))) ++
          chainL fl' tail)).length < f := by
      have hlen := congrArg List.length hdrop
      simp only [List.length_drop] at hlen
      have hlen2 : (R ++ chainL ((q, d) :: fl') tail).length =
          R.length + (chainL ((q, d) :: fl') tail).length := by simp
      have hlen3 : (chainL ((q, d) :: fl') tail).length =
          (headerL q).length +
            ((('\n' :: (d ++ (if fl'.isEmpty then tail else ['\n', '\n']))) ++
              chainL fl' tail)).length := by
        rw [hchain]; simp
      have hh := headerL_length q
      have hRlen : 1 ≤ R.length := by rw [hR]; simp
      omega
    rw [htake, hdrop, hp3, hR, jsTrimL_region hc4 (Or.inr rfl)]
    rw [ih q d f hfuel' ⟨hq1, hq2, hq3, hd4, hd5⟩ (fun pr hpr => hg pr (by simp [hpr]))]

/-- On a well-formed chain of blocks, pattern 1 recovers exactly the
(filename, body) pairs. -/
theorem parseBlocks1_chain (fl : List (List Char × List Char)) (tail : List Char)
    (htail : tail = [] ∨ tail = ['\n', '\n'])
    (hg : ∀ pr ∈ fl, goodPair pr) :
    parseBlocks1 (chainL fl tail) = fl := by
  cases fl with
  | nil => rfl
  | cons pr fl' =>
    obtain ⟨p, c⟩ := pr
    have hgp := hg (p, c) (by simp)
    obtain ⟨hp1, hp2, hp3, hc4, hc5⟩ := hgp
    have hchain : chainL ((p, c) :: fl') tail =
        headerL p ++ (('\n' :: (c ++ (if fl'.isEmpty then tail else ['\n', '\n']))) ++ chainL fl' tail) := by
      rw [chainL, List.append_assoc]
    have hfm : findMatch1 (chainL ((p, c) :: fl') tail) = some (0, 108 + p.length, p) := by
      rw [hchain]
      exact findMatch1_header p _ hp1 hp2
    rw [parseBlocks1_some hfm, hchain]
    rw [show (0 : Nat) + (108 + p.length) = 108 + p.length from by omega]
    rw [List.drop_left' (headerL_length p)]
    apply parseTail_chain fl' p c tail _ _ htail ⟨hp1, hp2, hp3, hc4, hc5⟩
      (fun pr hpr => hg pr (by simp [hpr]))
    simp only [List.length_append, headerL_length]
    omega

/-- The character-level pairs of a list of (path, content) files. -/
def blockPairs (files : List (String × String)) : List (List Char × List Char) :=
  files.map (fun pr => (pr.1.data, pr.2.data))

theorem fileBlock_data (p c : String) :
    (fileBlock p c).data = (headerL p.data ++ ('\n' :: (c.data ++ ['\n', '\n']))) := by
  simp [fileBlock, headerL, marker, markerL, List.append_assoc]

/-- The scanner's blob over a list of readable, small files is a block chain
with a trailing blank line after every block. -/
theorem scanBlob_data (files : List (String × String)) :
    (strConcat (files.map (fun pr => fileBlock pr.1 pr.2))).data =
      chainL (blockPairs files) ['\n', '\n'] := by
  induction files with
  | nil => rfl
  | cons pr rest ih =>
    obtain ⟨p, c⟩ := pr
    simp only [List.map_cons, strConcat_cons, String.data_append, ih, blockPairs, chainL,
      ite_self, fileBlock_data]

theorem str_append_ne {a : String} (b : String) (h : a ≠ "") : a ++ b ≠ "" := by
  intro hc
  apply h
  have hd := congrArg String.data hc
  simp only [String.data_append] at hd
  have : a.data = [] := (List.append_eq_nil.mp hd).1
  cases a with
  | mk d => simp_all

theorem joinBlocks_go (l : List String) (acc : String) (hacc : acc ≠ "") :
    l.foldl (fun acc bl => (if acc = "" then acc else acc ++ "\n\n") ++ bl) acc =
      acc ++ strConcat (l.map (fun b => "\n\n" ++ b)) := by
  induction l generalizing acc with
  | nil => simp
  | cons b rest ih =>
    simp only [List.foldl_cons, if_neg hacc, List.map_cons, strConcat_cons]
    rw [ih ((acc ++ "\n\n") ++ b) (str_append_ne b (str_append_ne "\n\n" hacc))]
    simp [String.append_assoc]

theorem joinBlocks_cons (x : String) (l : List String) (hx : x ≠ "") :
    joinBlocks (x :: l) = x ++ strConcat (l.map (fun b => "\n\n" ++ b)) := by
  unfold joinBlocks
  rw [List.foldl_cons, if_pos rfl]
  have h0 : ("" : String) ++ x = x := by simp
  rw [h0]
  exact joinBlocks_go l x hx

theorem outBlock_data (p c : String) :
    (outBlock p c).data = headerL p.data ++ '\n' :: c.data := by
  simp [outBlock, headerL, marker, markerL, List.append_assoc]

theorem outBlock_ne (p c : String) : outBlock p c ≠ "" := by
  intro hc
  have hd := congrArg String.data hc
  rw [outBlock_data] at hd
  have := congrArg List.length hd
  simp [headerL, markerL] at this

theorem strConcat_data (l : List String) :
    (strConcat l).data = l.foldr (fun s acc => s.data ++ acc) [] := by
  induction l with
  | nil => rfl
  | cons s rest ih => simp [strConcat_cons, ih]

theorem joinChain_aux (p c : String) (rest : List (String × String)) :
    (outBlock p c).data ++
        rest.foldr (fun pr acc => ("\n\n" ++ outBlock pr.1 pr.2).data ++ acc) [] =
      chainL ((p.data, c.data) :: blockPairs rest) [] := by
  induction rest generalizing p c with
  | nil =>
    simp [outBlock_data, chainL, blockPairs]
  | cons qr rest' ih =>
    obtain ⟨q, d⟩ := qr
    rw [List.foldr_cons]
    have hb : ("\n\n" ++ outBlock (q, d).1 (q, d).2).data = '\n' :: '\n' :: (outBlock q d).data := rfl
    rw [hb, List.cons_append, List.cons_append, ih q d]
    simp [chainL, blockPairs, outBlock_data, List.append_assoc]

/-- The extractor's re-serialized output over key/content pairs is a block
chain with no trailing blank line. -/
theorem joinBlocks_data (l : List (String × String)) :
    (joinBlocks (l.map (fun pr => outBlock pr.1 pr.2))).data =
      chainL (blockPairs l) [] := by
  cases l with
  | nil => rfl
  | cons pr rest =>
    obtain ⟨p, c⟩ := pr
    simp only [List.map_cons]
    rw [joinBlocks_cons _ _ (outBlock_ne p c)]
    rw [String.data_append, strConcat_data, List.map_map, List.foldr_map]
    exact joinChain_aux p c rest

theorem segOccursIn_iff (pat x : List Char) :
    segOccursIn pat x = true ↔ ∃ u v, x = u ++ pat ++ v := by
  induction x with
  | nil =>
    simp only [segOccursIn, List.isEmpty_iff]
    constructor
    · intro h
      exact ⟨[], [], by simp [h]⟩
    · rintro ⟨u, v, huv⟩
      have hlen := congrArg List.length huv
      simp only [List.length_nil, List.length_append] at hlen
      have hp : pat.length = 0 := by omega
      exact List.length_eq_zero.mp hp
  | cons c rest ih =>
    simp only [segOccursIn, Bool.or_eq_true, List.isPrefixOf_iff_prefix, ih]
    constructor
    · rintro (hpre | ⟨u, v, huv⟩)
      · obtain ⟨v, hv⟩ := hpre
        exact ⟨[], v, by simp [hv]⟩
      · exact ⟨c :: u, v, by simp [huv]⟩
    · rintro ⟨u, v, huv⟩
      cases u with
      | nil =>
        left
        exact ⟨v, by simpa using huv.symm⟩
      | cons c' u' =>
        right
        refine ⟨u', v, ?_⟩
        have h2 := (List.cons.injEq _ _ _ _).mp (by simpa using huv)
        rw [h2.2, List.append_assoc]

theorem pathMatches_self (p : String) : pathMatches p p = true := by
  simp [pathMatches]

theorem filter_key_eq {files : List (String × String)} {p cp : String}
    (hmem : (p, cp) ∈ files) (hnodup : (files.map Prod.fst).Nodup) :
    files.filter (fun pr => pr.1 = p) = [(p, cp)] := by
  induction files with
  | nil => simp at hmem
  | cons qr rest ih =>
    obtain ⟨q, d⟩ := qr
    simp only [List.map_cons, List.nodup_cons] at hnodup
    obtain ⟨hqnot, hrestnodup⟩ := hnodup
    by_cases hq : q = p
    · subst hq
      have hd : d = cp := by
        rcases List.mem_cons.mp hmem with heq | hrest
        · exact ((Prod.mk.injEq _ _ _ _).mp heq.symm).2
        · exact absurd (List.mem_map.mpr ⟨(q, cp), hrest, rfl⟩) hqnot
      subst hd
      rw [List.filter_cons_of_pos (by simp)]
      have hnone : rest.filter (fun pr => pr.1 = q) = [] := by
        rw [List.filter_eq_nil_iff]
        intro pr hpr
        simp only [decide_eq_true_eq]
        intro hpr1
        exact hqnot (List.mem_map.mpr ⟨pr, hpr, hpr1⟩)
      rw [hnone]
    · rw [List.filter_cons_of_neg (by simp [hq])]
      have hmem' : (p, cp) ∈ rest := by
        rcases List.mem_cons.mp hmem with heq | hrest
        · exact absurd ((Prod.mk.injEq _ _ _ _).mp heq.symm).1 hq
        · exact hrest
      exact ih hmem' hrestnodup

theorem find_key_eq {files : List (String × String)} {p cp : String}
    (hmem : (p, cp) ∈ files) (hnodup : (files.map Prod.fst).Nodup) :
    files.find? (fun pr => pr.1 = p) = some (p, cp) := by
  induction files with
  | nil => simp at hmem
  | cons qr rest ih =>
    obtain ⟨q, d⟩ := qr
    simp only [List.map_cons, List.nodup_cons] at hnodup
    obtain ⟨hqnot, hrestnodup⟩ := hnodup
    by_cases hq : q = p
    · subst hq
      have hd : d = cp := by
        rcases List.mem_cons.mp hmem with heq | hrest
        · exact ((Prod.mk.injEq _ _ _ _).mp heq.symm).2
        · exact absurd (List.mem_map.mpr ⟨(q, cp), hrest, rfl⟩) hqnot
      subst hd
      exact List.find?_cons_of_pos _ (by simp)
    · rw [List.find?_cons_of_neg _ (by simp [hq])]
      have hmem' : (p, cp) ∈ rest := by
        rcases List.mem_cons.mp hmem with heq | hrest
        · exact absurd ((Prod.mk.injEq _ _ _ _).mp heq.symm).1 hq
        · exact hrest
      exact ih hmem' hrestnodup

/-- The final content assigned to a requested path by the extractor. -/
def contentFor (files : List (String × String)) (p : String) : String :=
  ((files.find? (fun pr => pr.1 = p)).map Prod.snd).getD ""

theorem mem_dedupFirst {a : String} {l : List String} : a ∈ dedupFirst l ↔ a ∈ l := by
  induction l with
  | nil => simp [dedupFirst]
  | cons p rest ih =>
    simp only [dedupFirst, List.mem_cons, List.mem_filter]
    constructor
    · rintro (h | ⟨h1, _⟩)
      · left; exact h
      · right; exact ih.mp h1
    · rintro (h | h)
      · left; exact h
      · by_cases hap : a = p
        · left; exact hap
        · right; exact ⟨ih.mpr h, by simpa using hap⟩

theorem nodup_dedupFirst (l : List String) : (dedupFirst l).Nodup := by
  induction l with
  | nil => simp [dedupFirst]
  | cons p rest ih =>
    rw [dedupFirst, List.nodup_cons]
    constructor
    · intro hmem
      have := (List.mem_filter.mp hmem).2
      simp at this
    · exact ih.filter _

theorem mem_orderKeys {a : String} {l : List String} : a ∈ orderKeys l ↔ a ∈ l := by
  unfold orderKeys
  rw [List.mem_append, (List.perm_insertionSort _ _).mem_iff]
  simp only [List.mem_filter, mem_dedupFirst]
  constructor
  · rintro (⟨h, _⟩ | ⟨h, _⟩) <;> exact h
  · intro h
    by_cases hidx : isArrayIndexKey a
    · left; exact ⟨h, hidx⟩
    · right; exact ⟨h, by simpa using hidx⟩

theorem nodup_orderKeys (l : List String) : (orderKeys l).Nodup := by
  unfold orderKeys
  refine List.Nodup.append ?_ ?_ ?_
  · exact (List.perm_insertionSort _ _).symm.nodup ((nodup_dedupFirst l).filter _)
  · exact (nodup_dedupFirst l).filter _
  · intro a ha hb
    have h1 := (List.mem_filter.mp ((List.perm_insertionSort _ _).mem_iff.mp ha)).2
    have h2 := (List.mem_filter.mp hb).2
    simp only [Bool.not_eq_true'] at h2
    rw [h1] at h2
    exact Bool.noConfusion h2

theorem filterMap_eq_map_of_some {α β : Type} (f : α → Option β) (g : α → β) (l : List α)
    (h : ∀ a ∈ l, f a = some (g a)) : l.filterMap f = l.map g := by
  induction l with
  | nil => rfl
  | cons a rest ih =>
    rw [List.filterMap_cons, h a (by simp), List.map_cons,
      ih (fun b hb => h b (by simp [hb]))]

theorem strConcat_sep_occurs {x : String} {l : List String} (hx : x ∈ l) :
    ∃ u v, (strConcat (l.map (fun b => "\n\n" ++ b))).data = u ++ x.data ++ v := by
  induction l with
  | nil => simp at hx
  | cons b rest ih =>
    rcases List.mem_cons.mp hx with heq | hmem
    · subst heq
      exact ⟨['\n', '\n'],
        (strConcat (rest.map (fun b => "\n\n" ++ b))).data, by
          simp [List.append_assoc]⟩
    · obtain ⟨u, v, huv⟩ := ih hmem
      exact ⟨("\n\n" ++ b).data ++ u, v, by
        simp [huv, List.append_assoc]⟩

theorem joinBlocks_occurs {x : String} {l : List String} (hx : x ∈ l)
    (hhead : ∀ y ∈ l, y ≠ "") :
    ∃ u v, (joinBlocks l).data = u ++ x.data ++ v := by
  cases l with
  | nil => simp at hx
  | cons y rest =>
    rw [joinBlocks_cons y rest (hhead y (by simp))]
    rcases List.mem_cons.mp hx with heq | hmem
    · subst heq
      exact ⟨[], (strConcat (rest.map (fun b => "\n\n" ++ b))).data, by simp⟩
    · obtain ⟨u, v, huv⟩ := strConcat_sep_occurs hmem
      exact ⟨y.data ++ u, v, by simp [huv, List.append_assoc]⟩

theorem lastMatchFor_eq {files : List (String × String)} {p cp : String}
    (hmem : (p, cp) ∈ files)
    (hnodup : (files.map Prod.fst).Nodup)
    (hcross : ∀ a ∈ files.map Prod.fst, ∀ b ∈ files.map Prod.fst,
      pathMatches a b = true → a = b) :
    lastMatchFor (blockPairs files) p = some cp := by
  have hpnames : p ∈ files.map Prod.fst := List.mem_map.mpr ⟨(p, cp), hmem, rfl⟩
  unfold lastMatchFor
  have hfm : (blockPairs files).filter (fun bl => pathMatches p ⟨bl.1⟩) =
      blockPairs (files.filter (fun pr => pathMatches p pr.1)) := by
    unfold blockPairs
    rw [List.filter_map]
    rfl
  rw [hfm]
  have hcong : files.filter (fun pr => pathMatches p pr.1) =
      files.filter (fun pr => pr.1 = p) := by
    apply List.filter_congr
    intro pr hpr
    by_cases heq : pr.1 = p
    · rw [heq]
      simp [pathMatches_self]
    · have hnm : pathMatches p pr.1 = false := by
        by_contra hcon
        have htrue : pathMatches p pr.1 = true := by
          cases hb : pathMatches p pr.1 with
          | true => rfl
          | false => exact absurd hb hcon
        have := hcross p hpnames pr.1 (List.mem_map.mpr ⟨pr, hpr, rfl⟩) htrue
        exact heq this.symm
      simp [hnm, heq]
  rw [hcong, filter_key_eq hmem hnodup]
  rfl

theorem chainL_cons_ne_nil (pr : List Char × List Char)
    (fl : List (List Char × List Char)) (tail : List Char) :
    chainL (pr :: fl) tail ≠ [] := by
  obtain ⟨p, c⟩ := pr
  intro h
  have := congrArg List.length h
  rw [chainL] at this
  simp [headerL, markerL] at this

/-- The (path, content) pairs of the scanner's walk. -/
def scanPairs (es : List FSEntry) : List (String × String) :=
  (scanWalk es).map (fun t => (t.1, (t.2.2).getD ""))

theorem blob_eq_scanPairs (es : List FSEntry)
    (h1 : ∀ t ∈ scanWalk es, t.2.1 ≤ 1048576 ∧ ∃ c, t.2.2 = some c) :
    readRepositoryContent es =
      strConcat ((scanPairs es).map (fun pr => fileBlock pr.1 pr.2)) := by
  unfold readRepositoryContent scanPairs scanWalk
  rw [processDir_eq_blocks (szList es + 1) es "" (by omega), List.map_map]
  unfold scanWalk at h1
  congr 1
  apply List.map_congr_left
  intro t ht
  obtain ⟨hsz, c, hc⟩ := h1 t ht
  obtain ⟨pp, sz, oc⟩ := t
  simp only at hc
  subst hc
  have hsz' : sz ≤ 1048576 := hsz
  simp only [blockFor, Function.comp_apply, Option.getD_some]
  rw [if_neg (by omega)]


theorem contentFor_eq {files : List (String × String)} {p cp : String}
    (hmem : (p, cp) ∈ files) (hnodup : (files.map Prod.fst).Nodup) :
    contentFor files p = cp := by
  unfold contentFor
  rw [find_key_eq hmem hnodup]
  rfl

theorem pair_contentFor_mem {files : List (String × String)} {p : String}
    (hp : p ∈ files.map Prod.fst) (hnodup : (files.map Prod.fst).Nodup) :
    (p, contentFor files p) ∈ files := by
  obtain ⟨pr, hpr, hfst⟩ := List.mem_map.mp hp
  obtain ⟨q, cp⟩ := pr
  cases hfst
  rw [contentFor_eq hpr hnodup]
  exact hpr

/-- Behaviour of the extractor on any well-formed chain blob: every requested
path is resolved to its unique block body, and the output is the re-serialized
blocks over the `Object.entries` key order. -/
theorem extract_on_chain (files : List (String × String)) (req : List String)
    (tail : List Char) (blob : String)
    (hblob : blob.data = chainL (blockPairs files) tail)
    (htail : tail = [] ∨ tail = ['\n', '\n'])
    (hfne : files ≠ [])
    (hreq : ∀ p, p ∈ req → p ∈ files.map Prod.fst)
    (hg : ∀ pr ∈ blockPairs files, goodPair pr)
    (hnodup : (files.map Prod.fst).Nodup)
    (hcross : ∀ a ∈ files.map Prod.fst, ∀ b ∈ files.map Prod.fst,
      pathMatches a b = true → a = b) :
    extractFilesContent blob req =
      joinBlocks ((orderKeys req).map (fun p => outBlock p (contentFor files p))) := by
  have hbne : blob ≠ "" := by
    intro h
    rw [h] at hblob
    cases files with
    | nil => exact hfne rfl
    | cons f fs =>
      simp only [blockPairs, List.map_cons] at hblob
      exact chainL_cons_ne_nil _ _ _ hblob.symm
  have hpb : parseBlocks1 blob.data = blockPairs files := by
    rw [hblob]
    exact parseBlocks1_chain _ _ htail hg
  have hbpne : blockPairs files ≠ [] := by
    cases files with
    | nil => exact absurd rfl hfne
    | cons f fs => simp [blockPairs]
  have hEB : extractBlocks blob.data = blockPairs files := by
    unfold extractBlocks
    rw [hpb, if_pos hbpne]
  unfold extractFilesContent
  rw [if_neg hbne]
  dsimp only
  rw [hEB]
  congr 1
  apply filterMap_eq_map_of_some
  intro p hp
  have hpn : p ∈ files.map Prod.fst := hreq p (mem_orderKeys.mp hp)
  obtain ⟨pr, hpr, hfst⟩ := List.mem_map.mp hpn
  obtain ⟨q, cp⟩ := pr
  cases hfst
  rw [lastMatchFor_eq hpr hnodup hcross, contentFor_eq hpr hnodup]
  rfl

/-! ## Claim C1 -/

/-- **C1** (amended). Round-trip of the scanner blob through the extractor.
The claim as stated fails because every parsed block body is `trim()`-med
(see the counterexample: a trailing newline is lost), and block parsing can
be confused by delimiter runs inside file bodies or by filenames matching
other entries' basenames.  Under the side conditions that every walked file
is readable and at most 1 MiB, every relative path is nonempty, newline-free
and trim-invariant, every content is trim-invariant and contains no 50-`=`
run, the paths are distinct and no path `pathMatches`-collides with another,
extraction with the list of every written path yields a result containing
every file's original content unmodified, and re-extracting that output with
the same paths returns it unchanged (idempotence). -/
theorem C1_extract_roundTrip (es : List FSEntry)
    (hread : ∀ t ∈ scanWalk es, t.2.1 ≤ 1048576 ∧ ∃ c, t.2.2 = some c)
    (hg : ∀ pr ∈ blockPairs (scanPairs es), goodPair pr)
    (hnodup : ((scanPairs es).map Prod.fst).Nodup)
    (hcross : ∀ a ∈ (scanPairs es).map Prod.fst, ∀ b ∈ (scanPairs es).map Prod.fst,
      pathMatches a b = true → a = b) :
    (∀ pr ∈ scanPairs es,
      strOccursIn pr.2 (extractFilesContent (readRepositoryContent es)
        ((scanPairs es).map Prod.fst)) = true) ∧
    extractFilesContent
        (extractFilesContent (readRepositoryContent es) ((scanPairs es).map Prod.fst))
        ((scanPairs es).map Prod.fst) =
      extractFilesContent (readRepositoryContent es) ((scanPairs es).map Prod.fst) := by
  by_cases hnil : scanPairs es = []
  · constructor
    · intro pr hpr
      rw [hnil] at hpr
      simp at hpr
    · have hblob : readRepositoryContent es = "" := by
        rw [blob_eq_scanPairs es hread, hnil]
        rfl
      rw [hblob]
      rfl
  · have hblob : (readRepositoryContent es).data =
        chainL (blockPairs (scanPairs es)) ['\n', '\n'] := by
      rw [blob_eq_scanPairs es hread]
      exact scanBlob_data (scanPairs es)
    have hout := extract_on_chain (scanPairs es) ((scanPairs es).map Prod.fst) _ _
      hblob (Or.inr rfl) hnil (fun p hp => hp) hg hnodup hcross
    constructor
    · intro pr hpr
      obtain ⟨p, cp⟩ := pr
      have hpn : p ∈ (scanPairs es).map Prod.fst := List.mem_map.mpr ⟨(p, cp), hpr, rfl⟩
      have hpo : p ∈ orderKeys ((scanPairs es).map Prod.fst) := mem_orderKeys.mpr hpn
      have hcf : contentFor (scanPairs es) p = cp := contentFor_eq hpr hnodup
      have hmemL : outBlock p cp ∈ (orderKeys ((scanPairs es).map Prod.fst)).map
          (fun q => outBlock q (contentFor (scanPairs es) q)) := by
        refine List.mem_map.mpr ⟨p, hpo, ?_⟩
        rw [hcf]
      have hhead : ∀ y ∈ (orderKeys ((scanPairs es).map Prod.fst)).map
          (fun q => outBlock q (contentFor (scanPairs es) q)), y ≠ "" := by
        intro y hy
        obtain ⟨q, _, hq⟩ := List.mem_map.mp hy
        rw [← hq]
        exact outBlock_ne _ _
      obtain ⟨u, v, huv⟩ := joinBlocks_occurs hmemL hhead
      rw [hout]
      unfold strOccursIn
      apply (segOccursIn_iff _ _).mpr
      refine ⟨u ++ headerL p.data ++ ['\n'], v, ?_⟩
      rw [huv, outBlock_data]
      simp [List.append_assoc]
    · rw [hout]
      have hpairs : (orderKeys ((scanPairs es).map Prod.fst)).map
            (fun p => outBlock p (contentFor (scanPairs es) p)) =
          ((orderKeys ((scanPairs es).map Prod.fst)).map
            (fun p => (p, contentFor (scanPairs es) p))).map
              (fun pr => outBlock pr.1 pr.2) := by
        rw [List.map_map]
        rfl
      have hfst' : (((orderKeys ((scanPairs es).map Prod.fst)).map
            (fun p => (p, contentFor (scanPairs es) p))).map Prod.fst) =
          orderKeys ((scanPairs es).map Prod.fst) := by
        rw [List.map_map]
        exact List.map_id _
      have hone : ∀ p ∈ orderKeys ((scanPairs es).map Prod.fst),
          (p, contentFor (scanPairs es) p) ∈ (orderKeys ((scanPairs es).map Prod.fst)).map
            (fun q => (q, contentFor (scanPairs es) q)) := by
        intro p hp
        exact List.mem_map.mpr ⟨p, hp, rfl⟩
      have hfne' : (orderKeys ((scanPairs es).map Prod.fst)).map
          (fun p => (p, contentFor (scanPairs es) p)) ≠ [] := by
        cases hsp : scanPairs es with
        | nil => exact absurd hsp hnil
        | cons f fs =>
          intro h
          rw [List.map_eq_nil_iff] at h
          have hf : f.1 ∈ orderKeys ((f :: fs).map Prod.fst) :=
            mem_orderKeys.mpr (List.mem_map.mpr ⟨f, by simp, rfl⟩)
          rw [h] at hf
          simp at hf
      have hg' : ∀ pr ∈ blockPairs ((orderKeys ((scanPairs es).map Prod.fst)).map
          (fun p => (p, contentFor (scanPairs es) p))), goodPair pr := by
        intro pr hpr
        obtain ⟨qr, hqr, hq⟩ := List.mem_map.mp hpr
        obtain ⟨q, hqo, hq2⟩ := List.mem_map.mp hqr
        cases hq2
        have hqmem : (q, contentFor (scanPairs es) q) ∈ scanPairs es :=
          pair_contentFor_mem (mem_orderKeys.mp hqo) hnodup
        apply hg
        rw [← hq]
        exact List.mem_map.mpr ⟨(q, contentFor (scanPairs es) q), hqmem, rfl⟩
      have hnodup' : ((((orderKeys ((scanPairs es).map Prod.fst)).map
            (fun p => (p, contentFor (scanPairs es) p))).map Prod.fst)).Nodup := by
        rw [hfst']
        exact nodup_orderKeys _
      have hcross' : ∀ a ∈ (((orderKeys ((scanPairs es).map Prod.fst)).map
            (fun p => (p, contentFor (scanPairs es) p))).map Prod.fst),
          ∀ b ∈ (((orderKeys ((scanPairs es).map Prod.fst)).map
            (fun p => (p, contentFor (scanPairs es) p))).map Prod.fst),
          pathMatches a b = true → a = b := by
        rw [hfst']
        intro a ha b hb
        exact hcross a (mem_orderKeys.mp ha) b (mem_orderKeys.mp hb)
      have hreq' : ∀ p, p ∈ (scanPairs es).map Prod.fst →
          p ∈ (((orderKeys ((scanPairs es).map Prod.fst)).map
            (fun q => (q, contentFor (scanPairs es) q))).map Prod.fst) := by
        rw [hfst']
        intro p hp
        exact mem_orderKeys.mpr hp
      have hblob2 : (joinBlocks ((orderKeys ((scanPairs es).map Prod.fst)).map
          (fun p => outBlock p (contentFor (scanPairs es) p)))).data =
          chainL (blockPairs ((orderKeys ((scanPairs es).map Prod.fst)).map
            (fun p => (p, contentFor (scanPairs es) p)))) [] := by
        rw [hpairs]
        exact joinBlocks_data _
      have hout2 := extract_on_chain
        ((orderKeys ((scanPairs es).map Prod.fst)).map
          (fun p => (p, contentFor (scanPairs es) p)))
        ((scanPairs es).map Prod.fst) [] _ hblob2 (Or.inl rfl) hfne' hreq' hg' hnodup' hcross'
      rw [hout2]
      congr 1
      apply List.map_congr_left
      intro p hp
      have hcf2 : contentFor ((orderKeys ((scanPairs es).map Prod.fst)).map
          (fun q => (q, contentFor (scanPairs es) q))) p = contentFor (scanPairs es) p :=
        contentFor_eq (hone p hp) hnodup'
      rw [hcf2]

set_option maxRecDepth 20000 in
/-- C1, counterexample to the original claim: for the single file `a` with
content `"hello\n"`, extracting the scanner blob with path list `["a"]` does
not contain the original content unmodified — the block body is `trim()`-med,
so the trailing newline is lost. -/
theorem C1_counterexample :
    strOccursIn "hello\n"
      (extractFilesContent
        (readRepositoryContent [.file "a" 6 (some "hello\n")]) ["a"]) = false ∧
    strOccursIn "hello"
      (extractFilesContent
        (readRepositoryContent [.file "a" 6 (some "hello\n")]) ["a"]) = true := by
  constructor
  · decide
  · decide

/-- C1, witness: the amended round-trip theorem applied to the single
trim-invariant file `a` with content `"hello"`. -/
theorem C1_extract_roundTrip_witness :
    strOccursIn "hello"
      (extractFilesContent
        (readRepositoryContent [.file "a" 5 (some "hello")]) ["a"]) = true ∧
    extractFilesContent
        (extractFilesContent (readRepositoryContent [.file "a" 5 (some "hello")]) ["a"])
        ["a"] =
      extractFilesContent (readRepositoryContent [.file "a" 5 (some "hello")]) ["a"] := by
  have hsp : scanPairs [FSEntry.file "a" 5 (some "hello")] = [("a", "hello")] := by decide
  have hmap : (scanPairs [FSEntry.file "a" 5 (some "hello")]).map Prod.fst = ["a"] := by
    rw [hsp]
    rfl
  have hmain := C1_extract_roundTrip [FSEntry.file "a" 5 (some "hello")]
    (by
      intro t ht
      have hw : scanWalk [FSEntry.file "a" 5 (some "hello")] = [("a", 5, some "hello")] := by
        decide
      rw [hw] at ht
      rcases List.mem_singleton.mp ht with rfl
      exact ⟨by decide, "hello", rfl⟩)
    (by
      intro pr hpr
      have hb : blockPairs (scanPairs [FSEntry.file "a" 5 (some "hello")]) =
          [("a".data, "hello".data)] := by
        rw [hsp]
        rfl
      rw [hb] at hpr
      rcases List.mem_singleton.mp hpr with rfl
      refine ⟨by decide, by decide, by decide, by decide, ?_⟩
      intro u v hc
      have hseg : segOccursIn markerL "hello".data = true :=
        (segOccursIn_iff _ _).mpr ⟨u, v, hc⟩
      exact absurd hseg (by decide))
    (by rw [hmap]; decide)
    (by rw [hmap]; decide)
  rw [hmap] at hmain
  exact ⟨hmain.1 ("a", "hello") (by rw [hsp]; simp), hmain.2⟩

/-! ## SHA-256 (`crypto.createHash('sha256').update(url).digest('hex')`)

Byte-level implementation over `Nat`, reduced `% 2^32` where the JS/C
implementation wraps.  `update(url)` uses the UTF-8 encoding of the string;
repository URLs are ASCII, where the byte sequence is `Char.toNat` per
character. -/

def M32 : Nat := 4294967296

def rotr32 (n x : Nat) : Nat :=
  ((x >>> n) ||| (x <<< (32 - n))) % M32

def bnot32 (x : Nat) : Nat := 4294967295 - x

def shaCh (x y z : Nat) : Nat := (x &&& y) ^^^ (bnot32 x &&& z)

def shaMaj (x y z : Nat) : Nat := (x &&& y) ^^^ (x &&& z) ^^^ (y &&& z)

def shaS0 (x : Nat) : Nat := rotr32 2 x ^^^ rotr32 13 x ^^^ rotr32 22 x

def shaS1 (x : Nat) : Nat := rotr32 6 x ^^^ rotr32 11 x ^^^ rotr32 25 x

def shas0 (x : Nat) : Nat := rotr32 7 x ^^^ rotr32 18 x ^^^ (x >>> 3)

def shas1 (x : Nat) : Nat := rotr32 17 x ^^^ rotr32 19 x ^^^ (x >>> 10)

/-- The 64 SHA-256 round constants. -/
def shaK : List Nat :=
  [1116352408, 1899447441, 3049323471, 3921009573,
   961987163, 1508970993, 2453635748, 2870763221,
   3624381080, 310598401, 607225278, 1426881987,
   1925078388, 2162078206, 2614888103, 3248222580,
   3835390401, 4022224774, 264347078, 604807628,
   770255983, 1249150122, 1555081692, 1996064986,
   2554220882, 2821834349, 2952996808, 3210313671,
   3336571891, 3584528711, 113926993, 338241895,
   666307205, 773529912, 1294757372, 1396182291,
   1695183700, 1986661051, 2177026350, 2456956037,
   2730485921, 2820302411, 3259730800, 3345764771,
   3516065817, 3600352804, 4094571909, 275423344,
   430227734, 506948616, 659060556, 883997877,
   958139571, 1322822218, 1537002063, 1747873779,
   1955562222, 2024104815, 2227730452, 2361852424,
   2428436474, 2756734187, 3204031479, 3329325298]

/-- The eight 32-bit words of the hash state. -/
structure Sha8 where
  a : Nat
  b : Nat
  c : Nat
  d : Nat
  e : Nat
  f : Nat
  g : Nat
  h : Nat

def shaInit : Sha8 :=
  ⟨1779033703, 3144134277, 1013904242, 2773480762,
   1359893119, 2600822924, 528734635, 1541459225⟩

def shaRounds : List (Nat × Nat) → Sha8 → Sha8
  | [], st => st
  | (k, w) :: rest, st =>
    let t1 := (st.h + shaS1 st.e + shaCh st.e st.f st.g + k + w) % M32
    let t2 := (shaS0 st.a + shaMaj st.a st.b st.c) % M32
    shaRounds rest ⟨(t1 + t2) % M32, st.a, st.b, st.c, (st.d + t1) % M32, st.e, st.f, st.g⟩

def shaAdd (x y : Sha8) : Sha8 :=
  ⟨(x.a + y.a) % M32, (x.b + y.b) % M32, (x.c + y.c) % M32, (x.d + y.d) % M32,
   (x.e + y.e) % M32, (x.f + y.f) % M32, (x.g + y.g) % M32, (x.h + y.h) % M32⟩

/-- Big-endian 32-bit words of a byte list. -/
def toWords : List Nat → List Nat
  | b0 :: b1 :: b2 :: b3 :: rest =>
    (((b0 * 256 + b1) * 256 + b2) * 256 + b3) :: toWords rest
  | _ => []

/-- Extend the 16-word schedule by `fuel` further words. -/
def shaExtend : Nat → List Nat → List Nat
  | 0, w => w
  | n + 1, w =>
    let i := w.length
    shaExtend n (w ++ [(shas1 (w.getD (i - 2) 0) + w.getD (i - 7) 0 +
      shas0 (w.getD (i - 15) 0) + w.getD (i - 16) 0) % M32])

/-- Process the padded message in 64-byte blocks (fuel-bounded walk). -/
def shaBlocks : Nat → List Nat → Sha8 → Sha8
  | 0, _, st => st
  | _ + 1, [], st => st
  | fuel + 1, b :: bs, st =>
    let w := shaExtend 48 (toWords ((b :: bs).take 64))
    shaBlocks fuel ((b :: bs).drop 64) (shaAdd st (shaRounds (shaK.zip w) st))

/-- SHA-256 padding: `0x80`, zeros to 56 mod 64, then the 64-bit big-endian
bit length. -/
def shaPad (msg : List Nat) : List Nat :=
  let len := msg.length
  let k := (120 - ((len + 1) % 64)) % 64
  msg ++ 0x80 :: List.replicate k 0 ++
    [((8 * len) >>> 56) % 256, ((8 * len) >>> 48) % 256, ((8 * len) >>> 40) % 256,
     ((8 * len) >>> 32) % 256, ((8 * len) >>> 24) % 256, ((8 * len) >>> 16) % 256,
     ((8 * len) >>> 8) % 256, (8 * len) % 256]

def hexChar (n : Nat) : Char :=
  match n with
  | 0 => '0' | 1 => '1' | 2 => '2' | 3 => '3' | 4 => '4'
  | 5 => '5' | 6 => '6' | 7 => '7' | 8 => '8' | 9 => '9'
  | 10 => 'a' | 11 => 'b' | 12 => 'c' | 13 => 'd' | 14 => 'e' | _ => 'f'

def hex32 (x : Nat) : List Char :=
  [hexChar ((x >>> 28) % 16), hexChar ((x >>> 24) % 16), hexChar ((x >>> 20) % 16),
   hexChar ((x >>> 16) % 16), hexChar ((x >>> 12) % 16), hexChar ((x >>> 8) % 16),
   hexChar ((x >>> 4) % 16), hexChar (x % 16)]

/-- Hex digest of the SHA-256 of an (ASCII) string. -/
def sha256hex (s : String) : String :=
  let padded := shaPad (s.data.map Char.toNat)
  let st := shaBlocks (padded.length + 1) padded shaInit
  ⟨hex32 st.a ++ hex32 st.b ++ hex32 st.c ++ hex32 st.d ++
   hex32 st.e ++ hex32 st.f ++ hex32 st.g ++ hex32 st.h⟩

/-- FIPS 180-2 test vector. -/
theorem sha256hex_abc :
    sha256hex "abc" = "ba7816bf8f01cfea414140de5dae2223b00361a396177a9cb410ff61f20015ad" := by
  decide

/-- SHA-256 of the empty message. -/
theorem sha256hex_empty :
    sha256hex "" = "e3b0c44298fc1c149afbf4c8996fb92427ae41e4649b934ca495991b7852b855" := by
  decide

/-! ## Repository cloner (`RepositoryCloner`, src file `repository-cloner.ts`)

The filesystem is an association list from directory path to state; a git
environment records which remote operations succeed.  `cloneRepository` is
translated branch-for-branch from the source:

* `repoHash` hashes the **full request URL** (before `extractBaseUrl`);
* an existing directory is reused only when its `origin` fetch URL
  normalizes to the requested base URL (errors during this check, including
  a failing `fetch`, remove the directory and fall through to a fresh
  clone; a failing `checkout` on the reuse path is logged and swallowed);
* on an existing directory whose origin does not match (or has no origin),
  control falls through **without** removing it, `mkdir` succeeds, and
  `git clone` then fails on the non-empty directory, after which the catch
  block removes the directory and rethrows;
* any failure of the fresh clone or of its subsequent branch checkout
  removes the directory and rethrows. -/

/-- State of one temp directory: present but not a usable git repository
(`getRemotes` throws), or a repository with an optional `origin` fetch URL. -/
inductive DirState
  | nonGit : DirState
  | repo : Option String → DirState

def World : Type := List (String × DirState)

def findDir : World → String → Option DirState
  | [], _ => none
  | (p, st) :: rest, d => if p = d then some st else findDir rest d

def removeDir (w : World) (d : String) : World :=
  w.filter (fun pr => pr.1 ≠ d)

def setDir (w : World) (d : String) (st : DirState) : World :=
  (d, st) :: removeDir w d

/-- Which git operations succeed in the current environment. -/
structure GitEnv where
  cloneOk : String → Bool
  fetchOk : Bool
  checkoutOk : String → Bool

/-- Result of one `cloneRepository` call: the returned path or thrown error,
the filesystem afterwards, and whether `git clone` was invoked. -/
structure CloneOutcome where
  result : Except String String
  world : World
  cloned : Bool

/-- `url.replace(/\/tree\/.*$/, '')`: cut from the first `/tree/` that is
followed only by newline-free text. -/
def stripTree : List Char → List Char
  | [] => []
  | c :: rest =>
    if "/tree/".data.isPrefixOf (c :: rest) && !((c :: rest).any (fun ch => ch = '\n')) then []
    else c :: stripTree rest

def extractBaseUrl (url : String) : String :=
  ⟨stripTree url.data⟩

/-- `url.replace(/\.git$/, '').replace(/\/$/, '')`. -/
def normalizeUrl (url : String) : String :=
  let a := if ".git".data.isSuffixOf url.data then url.data.take (url.data.length - 4) else url.data
  ⟨if "/".data.isSuffixOf a then a.take (a.length - 1) else a⟩

/-- `url.match(/\/tree\/([^/]+)/)`: the maximal nonempty run of non-`/`
characters after the first viable `/tree/`. -/
def extractBranchL : List Char → Option (List Char)
  | [] => none
  | c :: rest =>
    if "/tree/".data.isPrefixOf (c :: rest) then
      let b := ((c :: rest).drop 6).takeWhile (fun ch => ch ≠ '/')
      if b.isEmpty then extractBranchL rest else some b
    else extractBranchL rest

def extractBranch (url : String) : Option String :=
  (extractBranchL url.data).map (fun b => ⟨b⟩)

/-- First 12 hex digits of the SHA-256 of the full request URL. -/
def repoHash (url : String) : String :=
  ⟨(sha256hex url).data.take 12⟩

/-- `path.join(os.tmpdir(), 'git_explorer_' + repoHash)`. -/
def tempDirFor (tmp url : String) : String :=
  tmp ++ "/git_explorer_" ++ repoHash url

/-- The fresh-clone tail of `cloneRepository`: `mkdir` has just (re)created
`tempDir` empty; clone, then checkout the branch if one was requested; on
any error remove the directory and throw. -/
def cloneFresh (env : GitEnv) (w : World) (tempDir baseUrl : String)
    (branch : Option String) : CloneOutcome :=
  if env.cloneOk baseUrl then
    match branch with
    | none => ⟨Except.ok tempDir, setDir w tempDir (DirState.repo (some baseUrl)), true⟩
    | some b =>
      if env.checkoutOk b then
        ⟨Except.ok tempDir, setDir w tempDir (DirState.repo (some baseUrl)), true⟩
      else
        ⟨Except.error "Failed to clone repository: checkout failed", removeDir w tempDir, true⟩
  else
    ⟨Except.error "Failed to clone repository: clone failed", removeDir w tempDir, true⟩

/-- `RepositoryCloner.cloneRepository`. -/
def cloneRepository (env : GitEnv) (w : World) (tmp url : String) : CloneOutcome :=
  let tempDir := tempDirFor tmp url
  let baseUrl := extractBaseUrl url
  let branch := extractBranch url
  match findDir w tempDir with
  | some (DirState.repo (some origin)) =>
    if origin ≠ "" ∧ normalizeUrl origin = normalizeUrl baseUrl then
      match branch with
      | none => ⟨Except.ok tempDir, w, false⟩
      | some _ =>
        if env.fetchOk then
          ⟨Except.ok tempDir, w, false⟩
        else
          cloneFresh env (removeDir w tempDir) tempDir baseUrl branch
    else
      ⟨Except.error "Failed to clone repository: destination path already exists and is not an empty directory",
        removeDir w tempDir, true⟩
  | some (DirState.repo none) =>
    ⟨Except.error "Failed to clone repository: destination path already exists and is not an empty directory",
      removeDir w tempDir, true⟩
  | some DirState.nonGit =>
    cloneFresh env (removeDir w tempDir) tempDir baseUrl branch
  | none => cloneFresh env w tempDir baseUrl branch

instance : DecidableEq (Except String String) := fun x y =>
  match x, y with
  | Except.ok a, Except.ok b =>
    if h : a = b then isTrue (by rw [h]) else isFalse (by simp [h])
  | Except.error a, Except.error b =>
    if h : a = b then isTrue (by rw [h]) else isFalse (by simp [h])
  | Except.ok _, Except.error _ => isFalse (by simp)
  | Except.error _, Except.ok _ => isFalse (by simp)

theorem findDir_setDir_self (w : World) (d : String) (st : DirState) :
    findDir (setDir w d st) d = some st := by
  simp [setDir, findDir]

theorem findDir_removeDir_self (w : World) (d : String) :
    findDir (removeDir w d) d = none := by
  induction w with
  | nil => rfl
  | cons pr rest ih =>
    obtain ⟨p, st⟩ := pr
    by_cases hp : p = d
    · subst hp
      simpa [removeDir, List.filter_cons] using ih
    · simp only [removeDir, ne_eq, decide_not] at ih ⊢
      rw [List.filter_cons]
      simp [hp, findDir, ih]

theorem cloneFresh_ok {env : GitEnv} {w : World} {tempDir baseUrl : String}
    {branch : Option String} {d : String}
    (h : (cloneFresh env w tempDir baseUrl branch).result = Except.ok d) :
    d = tempDir ∧
    (cloneFresh env w tempDir baseUrl branch).world =
      setDir w tempDir (DirState.repo (some baseUrl)) := by
  unfold cloneFresh at h ⊢
  by_cases hc : env.cloneOk baseUrl = true
  · rw [if_pos hc] at h ⊢
    cases branch with
    | none =>
      have h' : (Except.ok tempDir : Except String String) = Except.ok d := h
      exact ⟨(Except.ok.inj h').symm, rfl⟩
    | some b =>
      dsimp only at h ⊢
      by_cases hk : env.checkoutOk b = true
      · rw [if_pos hk] at h ⊢
        have h' : (Except.ok tempDir : Except String String) = Except.ok d := h
        exact ⟨(Except.ok.inj h').symm, rfl⟩
      · rw [if_neg hk] at h
        exact absurd h (by simp)
  · rw [if_neg hc] at h
    exact absurd h (by simp)

/-- Reuse path: an existing directory whose origin normalizes to the
requested base URL is returned as-is, with no clone invoked. -/
theorem clone_reuse {env : GitEnv} {w : World} {tmp url o : String}
    (ho : findDir w (tempDirFor tmp url) = some (DirState.repo (some o)))
    (hno : o ≠ "")
    (hn : normalizeUrl o = normalizeUrl (extractBaseUrl url))
    (hf : env.fetchOk = true) :
    cloneRepository env w tmp url = ⟨Except.ok (tempDirFor tmp url), w, false⟩ := by
  unfold cloneRepository
  dsimp only
  rw [ho]
  dsimp only
  rw [if_pos ⟨hno, hn⟩]
  cases hbr : extractBranch url with
  | none => rfl
  | some b => simp [hf]

/-- After any successful call the directory holds a repository whose origin
normalizes to the requested base URL. -/
theorem clone_ok_post {env : GitEnv} {w : World} {tmp url d : String}
    (hb : extractBaseUrl url ≠ "")
    (h : (cloneRepository env w tmp url).result = Except.ok d) :
    d = tempDirFor tmp url ∧
    ∃ o, findDir (cloneRepository env w tmp url).world (tempDirFor tmp url) =
        some (DirState.repo (some o)) ∧
      o ≠ "" ∧ normalizeUrl o = normalizeUrl (extractBaseUrl url) := by
  unfold cloneRepository at h ⊢
  dsimp only at h ⊢
  cases hfd : findDir w (tempDirFor tmp url) with
  | none =>
    rw [hfd] at h
    dsimp only at h ⊢
    obtain ⟨hd, hw⟩ := cloneFresh_ok h
    rw [hw, findDir_setDir_self]
    exact ⟨hd, extractBaseUrl url, rfl, hb, rfl⟩
  | some st =>
    rw [hfd] at h
    cases st with
    | nonGit =>
      dsimp only at h ⊢
      obtain ⟨hd, hw⟩ := cloneFresh_ok h
      rw [hw, findDir_setDir_self]
      exact ⟨hd, extractBaseUrl url, rfl, hb, rfl⟩
    | repo oro =>
      cases oro with
      | none =>
        dsimp only at h
        exact absurd h (by simp)
      | some o =>
        dsimp only at h ⊢
        by_cases hn : o ≠ "" ∧ normalizeUrl o = normalizeUrl (extractBaseUrl url)
        · rw [if_pos hn] at h ⊢
          cases hbr : extractBranch url with
          | none =>
            rw [hbr] at h
            dsimp only at h ⊢
            have h' : (Except.ok (tempDirFor tmp url) : Except String String) = Except.ok d := h
            exact ⟨(Except.ok.inj h').symm, o, by simpa using hfd, hn.1, hn.2⟩
          | some b =>
            rw [hbr] at h
            dsimp only at h ⊢
            by_cases hf : env.fetchOk = true
            · rw [if_pos hf] at h ⊢
              have h' : (Except.ok (tempDirFor tmp url) : Except String String) = Except.ok d := h
              exact ⟨(Except.ok.inj h').symm, o, by simpa using hfd, hn.1, hn.2⟩
            · rw [if_neg hf] at h ⊢
              obtain ⟨hd, hw⟩ := cloneFresh_ok h
              rw [hw, findDir_setDir_self]
              exact ⟨hd, extractBaseUrl url, rfl, hb, rfl⟩
        · rw [if_neg hn] at h
          exact absurd h (by simp)

/-- Mismatched (or missing-origin) existing directory: the fall-through
`git clone` fails on the non-empty directory; the catch block removes it and
rethrows. -/
theorem clone_mismatch {env : GitEnv} {w : World} {tmp url o : String}
    (ho : findDir w (tempDirFor tmp url) = some (DirState.repo (some o)))
    (hn : normalizeUrl o ≠ normalizeUrl (extractBaseUrl url)) :
    cloneRepository env w tmp url =
      ⟨Except.error "Failed to clone repository: destination path already exists and is not an empty directory",
        removeDir w (tempDirFor tmp url), true⟩ := by
  unfold cloneRepository
  dsimp only
  rw [ho]
  dsimp only
  rw [if_neg (fun hc => hn hc.2)]

theorem cloneFresh_error_world {env : GitEnv} {w : World} {tempDir baseUrl : String}
    {branch : Option String} {e : String}
    (h : (cloneFresh env w tempDir baseUrl branch).result = Except.error e) :
    (cloneFresh env w tempDir baseUrl branch).world = removeDir w tempDir := by
  unfold cloneFresh at h ⊢
  by_cases hc : env.cloneOk baseUrl = true
  · rw [if_pos hc] at h ⊢
    cases branch with
    | none => exact absurd h (by simp)
    | some b =>
      dsimp only at h ⊢
      by_cases hk : env.checkoutOk b = true
      · rw [if_pos hk] at h
        exact absurd h (by simp)
      · rw [if_neg hk]
  · rw [if_neg hc]

/-! ## Claims C2 and C5 -/

/-- **C2** (amended).  The working-copy directory is a deterministic function
of the **raw request URL** (the SHA-256 hash is taken before `/tree/<branch>`
is stripped), not of the normalized remote URL as claimed — see the
counterexample.  Amended: (1) after a successful `cloneRepository` call for a
URL, an immediately repeated call for the **same raw URL** returns the same
directory path and reuses the directory without invoking a fresh clone;
(2) an existing directory whose configured origin does not normalize to the
requested base URL is destroyed, but the call then **fails** (the fall-through
`git clone` refuses the non-empty directory) instead of recreating it. -/
theorem C2_workingCopy (env : GitEnv) (tmp url : String)
    (hf : env.fetchOk = true) (hb : extractBaseUrl url ≠ "") :
    (∀ w d, (cloneRepository env w tmp url).result = Except.ok d →
      d = tempDirFor tmp url ∧
      cloneRepository env (cloneRepository env w tmp url).world tmp url =
        ⟨Except.ok d, (cloneRepository env w tmp url).world, false⟩) ∧
    (∀ w o, findDir w (tempDirFor tmp url) = some (DirState.repo (some o)) →
      normalizeUrl o ≠ normalizeUrl (extractBaseUrl url) →
      (cloneRepository env w tmp url).result =
          Except.error "Failed to clone repository: destination path already exists and is not an empty directory" ∧
      findDir (cloneRepository env w tmp url).world (tempDirFor tmp url) = none) := by
  constructor
  · intro w d h
    obtain ⟨hd, o, ho, hno, hn⟩ := clone_ok_post hb h
    subst hd
    exact ⟨rfl, clone_reuse ho hno hn hf⟩
  · intro w o ho hn
    rw [clone_mismatch ho hn]
    exact ⟨rfl, findDir_removeDir_self _ _⟩

/-- C2, counterexample to the original claim: the URLs
`https://github.com/a/b` and `https://github.com/a/b/tree/main` have the same
normalized remote URL, yet are mapped to different working-copy directories,
and the second call after materializing the first performs a fresh clone; an
existing directory with a mismatched origin makes the call fail instead of
recreating the directory. -/
theorem C2_counterexample :
    normalizeUrl (extractBaseUrl "https://github.com/a/b") =
      normalizeUrl (extractBaseUrl "https://github.com/a/b/tree/main") ∧
    tempDirFor "/tmp" "https://github.com/a/b" ≠
      tempDirFor "/tmp" "https://github.com/a/b/tree/main" ∧
    (cloneRepository ⟨fun _ => true, true, fun _ => true⟩
        (cloneRepository ⟨fun _ => true, true, fun _ => true⟩ [] "/tmp"
          "https://github.com/a/b").world
        "/tmp" "https://github.com/a/b/tree/main").cloned = true ∧
    (cloneRepository ⟨fun _ => true, true, fun _ => true⟩
        [(tempDirFor "/tmp" "https://github.com/x/y", DirState.repo (some "https://github.com/other/url"))]
        "/tmp" "https://github.com/x/y").result =
      Except.error "Failed to clone repository: destination path already exists and is not an empty directory" := by
  exact ⟨rfl, by decide, by decide, by decide⟩

/-- C2, witness: the amended reuse property at a concrete URL. -/
theorem C2_workingCopy_witness :
    tempDirFor "/tmp" "https://github.com/a/b" = tempDirFor "/tmp" "https://github.com/a/b" ∧
    cloneRepository ⟨fun _ => true, true, fun _ => true⟩
        (cloneRepository ⟨fun _ => true, true, fun _ => true⟩ [] "/tmp"
          "https://github.com/a/b").world
        "/tmp" "https://github.com/a/b" =
      ⟨Except.ok (tempDirFor "/tmp" "https://github.com/a/b"),
        (cloneRepository ⟨fun _ => true, true, fun _ => true⟩ [] "/tmp"
          "https://github.com/a/b").world, false⟩ :=
  (C2_workingCopy ⟨fun _ => true, true, fun _ => true⟩ "/tmp" "https://github.com/a/b"
      rfl (by decide)).1
    [] (tempDirFor "/tmp" "https://github.com/a/b") (by decide)

/-- **C5** (confirmed).  Whenever `cloneRepository` propagates an error —
failed clone, failed checkout of the requested ref, or the fall-through clone
onto a mismatched existing directory — the temp directory has been removed:
no partial working copy is left behind for the next caller. -/
theorem C5_errorCleanup (env : GitEnv) (w : World) (tmp url e : String)
    (h : (cloneRepository env w tmp url).result = Except.error e) :
    findDir (cloneRepository env w tmp url).world (tempDirFor tmp url) = none := by
  unfold cloneRepository at h ⊢
  dsimp only at h ⊢
  cases hfd : findDir w (tempDirFor tmp url) with
  | none =>
    rw [hfd] at h
    dsimp only at h ⊢
    rw [cloneFresh_error_world h, findDir_removeDir_self]
  | some st =>
    rw [hfd] at h
    cases st with
    | nonGit =>
      dsimp only at h ⊢
      rw [cloneFresh_error_world h, findDir_removeDir_self]
    | repo oro =>
      cases oro with
      | none =>
        dsimp only at h ⊢
        exact findDir_removeDir_self _ _
      | some o =>
        dsimp only at h ⊢
        by_cases hn : o ≠ "" ∧ normalizeUrl o = normalizeUrl (extractBaseUrl url)
        · rw [if_pos hn] at h ⊢
          cases hbr : extractBranch url with
          | none =>
            rw [hbr] at h
            exact absurd h (by simp)
          | some b =>
            rw [hbr] at h
            dsimp only at h ⊢
            by_cases hfe : env.fetchOk = true
            · rw [if_pos hfe] at h
              exact absurd h (by simp)
            · rw [if_neg hfe] at h ⊢
              rw [cloneFresh_error_world h, findDir_removeDir_self]
        · rw [if_neg hn] at h ⊢
          exact findDir_removeDir_self _ _

/-- C5, witness: a failing clone of a concrete URL leaves no directory. -/
theorem C5_errorCleanup_witness :
    findDir (cloneRepository ⟨fun _ => false, true, fun _ => true⟩ [] "/tmp"
        "https://github.com/a/b").world
      (tempDirFor "/tmp" "https://github.com/a/b") = none :=
  C5_errorCleanup ⟨fun _ => false, true, fun _ => true⟩ [] "/tmp" "https://github.com/a/b"
    "Failed to clone repository: clone failed" (by decide)

/-! ## Claim C6 -/

theorem strOccursIn_self (s : String) : strOccursIn s s = true := by
  unfold strOccursIn
  exact (segOccursIn_iff _ _).mpr ⟨[], [], by simp⟩

theorem strOccursIn_append_left {pat a : String} (b : String)
    (h : strOccursIn pat a = true) : strOccursIn pat (a ++ b) = true := by
  unfold strOccursIn at h ⊢
  rw [String.data_append]
  obtain ⟨u, v, huv⟩ := (segOccursIn_iff _ _).mp h
  exact (segOccursIn_iff _ _).mpr ⟨u, v ++ b.data, by simp [huv, List.append_assoc]⟩

theorem strOccursIn_append_right {pat b : String} (a : String)
    (h : strOccursIn pat b = true) : strOccursIn pat (a ++ b) = true := by
  unfold strOccursIn at h ⊢
  rw [String.data_append]
  obtain ⟨u, v, huv⟩ := (segOccursIn_iff _ _).mp h
  exact (segOccursIn_iff _ _).mpr ⟨a.data ++ u, v, by simp [huv, List.append_assoc]⟩

theorem strConcat_occurs {x : String} {l : List String} (hx : x ∈ l) :
    strOccursIn x (strConcat l) = true := by
  induction l with
  | nil => cases hx
  | cons b rest ih =>
    rw [strConcat_cons]
    rcases List.mem_cons.mp hx with heq | hmem
    · subst heq
      exact strOccursIn_append_left _ (strOccursIn_self x)
    · exact strOccursIn_append_right _ (ih hmem)

mutual
/-- Replace the content of every file over the 1 MiB ceiling by an arbitrary
unreadable marker: the scanner's output may not depend on such contents. -/
def censor : FSEntry → FSEntry
  | .file n size oc => .file n size (if 1048576 < size then none else oc)
  | .dir n sub => .dir n (censorList sub)

def censorList : List FSEntry → List FSEntry
  | [] => []
  | e :: rest => censor e :: censorList rest
end

theorem censor_name (e : FSEntry) : (censor e).name = e.name := by
  cases e <;> rfl

mutual
theorem sz_censor : ∀ e : FSEntry, (censor e).sz = e.sz
  | .file n size oc => rfl
  | .dir n sub => by
    simp only [censor, FSEntry.sz]
    rw [szList_censor sub]

theorem szList_censor : ∀ es : List FSEntry, szList (censorList es) = szList es
  | [] => rfl
  | e :: rest => by
    simp only [censorList, szList]
    rw [sz_censor e, szList_censor rest]
end

theorem processDir_censor :
    ∀ (fuel : Nat) (es : List FSEntry) (rel : String),
      processDir fuel (censorList es) rel = processDir fuel es rel
  | 0, _, _ => rfl
  | _ + 1, [], _ => rfl
  | fuel + 1, e :: rest, rel => by
    simp only [censorList, processDir]
    rw [processDir_censor fuel rest rel, censor_name]
    congr 1
    by_cases hg : strStartsWith e.name ".git" = true
    · rw [if_pos hg, if_pos hg]
    · rw [if_neg hg, if_neg hg]
      cases e with
      | dir n sub =>
        simp only [censor]
        rw [processDir_censor fuel sub _]
      | file n size oc =>
        simp only [censor]
        by_cases hs : 1048576 < size
        · simp only [if_pos hs]
        · simp only [if_neg hs]

/-- **C6** (confirmed).  Every walked file over the 1 MiB ceiling contributes
its placeholder block to ConcatenatedContent — a block that contains the words
`too large` and the size in MiB to two decimal places — and the blob does not
depend on the contents of oversized files at all (`censorList` erases them);
every readable file at or below the ceiling contributes its full content
block. -/
theorem C6_sizeCeiling (es : List FSEntry) :
    (∀ t ∈ scanWalk es, 1048576 < t.2.1 →
      strOccursIn (largeBlock t.1 t.2.1) (readRepositoryContent es) = true ∧
      strOccursIn "too large" (largeBlock t.1 t.2.1) = true ∧
      strOccursIn (toFixed2MB t.2.1) (largeBlock t.1 t.2.1) = true) ∧
    readRepositoryContent (censorList es) = readRepositoryContent es ∧
    (∀ t ∈ scanWalk es, ∀ c, t.2.1 ≤ 1048576 → t.2.2 = some c →
      strOccursIn (fileBlock t.1 c) (readRepositoryContent es) = true) := by
  have hblocks : readRepositoryContent es = strConcat ((scanWalk es).map blockFor) := by
    unfold readRepositoryContent scanWalk
    exact processDir_eq_blocks _ _ _ (by omega)
  refine ⟨?_, ?_, ?_⟩
  · intro t ht hbig
    obtain ⟨p, size, oc⟩ := t
    have hbl : blockFor (p, size, oc) = largeBlock p size := by
      simp only [blockFor, if_pos hbig]
    refine ⟨?_, ?_, ?_⟩
    · rw [hblocks, ← hbl]
      exact strConcat_occurs (List.mem_map.mpr ⟨(p, size, oc), ht, rfl⟩)
    · unfold largeBlock
      apply strOccursIn_append_left
      apply strOccursIn_append_left
      apply strOccursIn_append_right
      decide
    · unfold largeBlock
      apply strOccursIn_append_left
      apply strOccursIn_append_right
      exact strOccursIn_self _
  · unfold readRepositoryContent
    rw [processDir_censor]
    rw [szList_censor es]
  · intro t ht c hsz hc
    obtain ⟨p, size, oc⟩ := t
    simp only at hsz hc
    subst hc
    have hbl : blockFor (p, size, some c) = fileBlock p c := by
      simp only [blockFor, if_neg (by omega : ¬1048576 < size)]
    rw [hblocks, ← hbl]
    exact strConcat_occurs (List.mem_map.mpr ⟨(p, size, some c), ht, rfl⟩)

/-- C6, witness: a 2 MiB file yields a placeholder block carrying
`too large` and the two-decimal size. -/
theorem C6_sizeCeiling_witness :
    strOccursIn (largeBlock "big.bin" 2097152)
      (readRepositoryContent [FSEntry.file "big.bin" 2097152 (some "SECRET")]) = true ∧
    strOccursIn "too large" (largeBlock "big.bin" 2097152) = true ∧
    strOccursIn (toFixed2MB 2097152) (largeBlock "big.bin" 2097152) = true :=
  (C6_sizeCeiling [FSEntry.file "big.bin" 2097152 (some "SECRET")]).1
    ("big.bin", 2097152, some "SECRET") (by decide) (by decide)

/-! ## Claim C7 -/

mutual
/-- No entry of the tree has a `.git`-prefixed name. -/
def cleanE : FSEntry → Bool
  | .file n _ _ => !strStartsWith n ".git"
  | .dir n sub => !strStartsWith n ".git" && cleanL sub

def cleanL : List FSEntry → Bool
  | [] => true
  | e :: rest => cleanE e && cleanL rest
end

theorem cleanL_forall {es : List FSEntry} :
    cleanL es = true ↔ ∀ e ∈ es, cleanE e = true := by
  induction es with
  | nil => simp [cleanL]
  | cons e rest ih =>
    simp [cleanL, Bool.and_eq_true, ih]

theorem filter_of_clean {es : List FSEntry} (h : ∀ e ∈ es, cleanE e = true) :
    es.filter (fun e => !strStartsWith e.name ".git") = es := by
  rw [List.filter_eq_self]
  intro e he
  have := h e he
  cases e with
  | file n size oc =>
    simpa [cleanE, FSEntry.name] using this
  | dir n sub =>
    simp only [cleanE, Bool.and_eq_true] at this
    simpa [FSEntry.name] using this.1

mutual
/-- With no `.git`-prefixed entry anywhere, the source renderer coincides
with the spec's renderer (the pre- versus post-exclusion `isLast` choice
cannot be observed). -/
theorem genTreeF_clean :
    ∀ (fuel : Nat) (es : List FSEntry) (pfx : String),
      (∀ e ∈ es, cleanE e = true) → genTreeF fuel es pfx = specTreeF fuel es pfx
  | 0, _, _, _ => rfl
  | fuel + 1, es, pfx, h => by
    rw [genTreeF, specTreeF, filter_of_clean h]
    exact genRowF_clean fuel _ pfx
      (fun e he => h e ((List.perm_insertionSort _ _).mem_iff.mp he))

theorem genRowF_clean :
    ∀ (fuel : Nat) (s : List FSEntry) (pfx : String),
      (∀ e ∈ s, cleanE e = true) → genRowF fuel s pfx = specRowF fuel s pfx
  | 0, _, _, _ => rfl
  | _ + 1, [], _, _ => rfl
  | fuel + 1, e :: rest, pfx, h => by
    rw [genRowF, specRowF]
    have he := h e (by simp)
    have hg : strStartsWith e.name ".git" = false := by
      cases e with
      | file n size oc => simpa [cleanE, FSEntry.name] using he
      | dir n sub =>
        simp only [cleanE, Bool.and_eq_true] at he
        simpa [FSEntry.name] using he.1
    rw [if_neg (by simp [hg])]
    have hrest := genRowF_clean fuel rest pfx (fun x hx => h x (by simp [hx]))
    rw [hrest]
    congr 1
    cases e with
    | file n size oc => rfl
    | dir n sub =>
      simp only [cleanE, Bool.and_eq_true] at he
      dsimp only
      rw [genTreeF_clean fuel sub _ (cleanL_forall.mp he.2)]
end

/-- **C7** (amended).  `generateDirectoryTree` renders each level sorted with
`.git`-prefixed entries excluded and is deterministic (it is a pure function
of the entry list), but the closing-connector claim is wrong in general: the
source computes `isLast` from the position in the *sorted, unfiltered* list,
so when a `.git`-prefixed entry sorts last, the last rendered entry gets the
`├── ` connector (see the counterexample).  Amended: on any tree containing
no `.git`-prefixed entry at any level, the renderer agrees exactly with the
spec's renderer `specTreeRender`, in which the last rendered entry of each
level always gets `└── ` and a bar-free continuation prefix. -/
theorem C7_treeRendering (es : List FSEntry) (pfx : String) (h : cleanL es = true) :
    generateDirectoryTree es pfx = specTreeRender es pfx :=
  genTreeF_clean _ es pfx (cleanL_forall.mp h)

/-- C7, counterexample to the original claim: with entries `!a` and
`.gitignore`, the `.gitignore` entry sorts last and is excluded, so the last
rendered entry (`!a`) gets the `├── ` connector, not `└── `. -/
theorem C7_counterexample :
    generateDirectoryTree [FSEntry.file "!a" 1 (some "z"), FSEntry.file ".gitignore" 1 (some "g")] ""
      = "├── !a\n" ∧
    specTreeRender [FSEntry.file "!a" 1 (some "z"), FSEntry.file ".gitignore" 1 (some "g")] ""
      = "└── !a\n" := by
  exact ⟨by decide, by decide⟩

/-- C7, witness: without `.git` entries the two renderers agree on a nested
tree. -/
theorem C7_treeRendering_witness :
    generateDirectoryTree
        [FSEntry.dir "src" [FSEntry.file "x.ts" 3 (some "x"), FSEntry.file "y.ts" 3 (some "y")],
         FSEntry.file "README.md" 7 (some "#")] "" =
      specTreeRender
        [FSEntry.dir "src" [FSEntry.file "x.ts" 3 (some "x"), FSEntry.file "y.ts" 3 (some "y")],
         FSEntry.file "README.md" 7 (some "#")] "" :=
  C7_treeRendering
    [FSEntry.dir "src" [FSEntry.file "x.ts" 3 (some "x"), FSEntry.file "y.ts" 3 (some "y")],
     FSEntry.file "README.md" 7 (some "#")] "" (by decide)

/-! ## Cache manager (`CacheManager`, src file `cache-manager.ts`) -/

/-- `CacheEntry` of `types.ts` (the structured `summary` is carried here by
its raw text; its further fields play no role in the cached claims). -/
structure CacheEntry where
  summary : String
  tree : String
  content : String
  timestamp : Nat

/-- On-disk state of one cache file: missing (`stat` throws), present but
unreadable (`readFile` throws), readable but invalid JSON (`JSON.parse`
throws), or a stored entry — each with its `stat.mtimeMs`. -/
inductive CacheFile
  | absent : CacheFile
  | unreadable : Nat → CacheFile
  | corrupt : Nat → CacheFile
  | entry : Nat → CacheEntry → CacheFile

/-- `cacheExpiryMinutes * 60 * 1000` (constructor). -/
def cacheExpiryMs (cacheExpiryMinutes : Nat) : Nat :=
  cacheExpiryMinutes * 60 * 1000

/-- The body of `loadFromCache`'s `try` block: `stat`, the strict
`Date.now() - stat.mtimeMs > expiry` age test, `readFile`, `JSON.parse`.
(`Nat` subtraction truncates at zero exactly as the JS comparison treats a
future `mtimeMs`: a negative age is never `> expiry`.) -/
def loadFromCacheRaw (now expiry : Nat) (cf : CacheFile) : Except String (Option CacheEntry) :=
  match cf with
  | CacheFile.absent => Except.error "ENOENT: no such file or directory"
  | CacheFile.unreadable m =>
    if expiry < now - m then Except.ok none else Except.error "EACCES: permission denied"
  | CacheFile.corrupt m =>
    if expiry < now - m then Except.ok none else Except.error "Unexpected token in JSON"
  | CacheFile.entry m e =>
    if expiry < now - m then Except.ok none else Except.ok (some e)

/-- `CacheManager.loadFromCache`: the catch block maps every thrown error to
`null`. -/
def loadFromCache (now expiry : Nat) (cf : CacheFile) : Option CacheEntry :=
  match loadFromCacheRaw now expiry cf with
  | Except.ok r => r
  | Except.error _ => none

/-- Which step of `saveToCache`'s try block fails, if any. -/
inductive WriteOutcome
  | ok : WriteOutcome
  | mkdirFail : WriteOutcome
  | writeFail : WriteOutcome

/-- `CacheManager.saveToCache`: returns the resulting cache-file state; the
catch block logs and swallows, so the call never propagates an error. -/
def saveToCache (wo : WriteOutcome) (e : CacheEntry) (prev : CacheFile) (now : Nat) :
    Except String CacheFile :=
  match wo with
  | WriteOutcome.ok => Except.ok (CacheFile.entry now e)
  | WriteOutcome.mkdirFail => Except.ok prev
  | WriteOutcome.writeFail => Except.ok prev

/-! ## Claims C3 and C8 -/

/-- **C3** (confirmed).  A stored entry whose age `now - mtimeMs` strictly
exceeds the configured expiry is reported absent (`none`), an entry read at
age at most the expiry is returned unchanged, and the default configuration
(60 minutes) gives an expiry of 3 600 000 ms. -/
theorem C3_cacheExpiry (now m : Nat) (e : CacheEntry) (minutes : Nat) :
    (cacheExpiryMs minutes < now - m →
      loadFromCache now (cacheExpiryMs minutes) (CacheFile.entry m e) = none) ∧
    (now - m ≤ cacheExpiryMs minutes →
      loadFromCache now (cacheExpiryMs minutes) (CacheFile.entry m e) = some e) ∧
    cacheExpiryMs 60 = 3600000 := by
  refine ⟨?_, ?_, rfl⟩
  · intro hexp
    unfold loadFromCache loadFromCacheRaw
    dsimp only
    rw [if_pos hexp]
  · intro hfresh
    unfold loadFromCache loadFromCacheRaw
    dsimp only
    rw [if_neg (by omega)]

/-- C3, witness: at age one millisecond past the default expiry the entry is
absent; at age exactly the expiry it is served unchanged. -/
theorem C3_cacheExpiry_witness :
    (cacheExpiryMs 60 < 3600001 - 0 →
      loadFromCache 3600001 (cacheExpiryMs 60) (CacheFile.entry 0 ⟨"s", "t", "c", 0⟩) = none) ∧
    (3600000 - 0 ≤ cacheExpiryMs 60 →
      loadFromCache 3600000 (cacheExpiryMs 60) (CacheFile.entry 0 ⟨"s", "t", "c", 0⟩) =
        some ⟨"s", "t", "c", 0⟩) ∧
    cacheExpiryMs 60 = 3600000 :=
  ⟨(C3_cacheExpiry 3600001 0 ⟨"s", "t", "c", 0⟩ 60).1,
   (C3_cacheExpiry 3600000 0 ⟨"s", "t", "c", 0⟩ 60).2.1,
   (C3_cacheExpiry 0 0 ⟨"s", "t", "c", 0⟩ 60).2.2⟩

/-- **C8** (confirmed).  The cache fails soft in both directions: whenever
the read body would throw (missing file, unreadable file, corrupt JSON) the
caller sees a plain `none` — as it does for an expired timestamp — and
`saveToCache` never propagates an error, whatever step of the write fails. -/
theorem C8_failSoft :
    (∀ now expiry cf, (∃ msg, loadFromCacheRaw now expiry cf = Except.error msg) →
      loadFromCache now expiry cf = none) ∧
    (∀ now expiry m e, expiry < now - m →
      loadFromCache now expiry (CacheFile.entry m e) = none) ∧
    (∀ wo e prev now, ∃ cf, saveToCache wo e prev now = Except.ok cf) := by
  refine ⟨?_, ?_, ?_⟩
  · intro now expiry cf hmsg
    obtain ⟨msg, hmsg⟩ := hmsg
    unfold loadFromCache
    rw [hmsg]
  · intro now expiry m e hexp
    unfold loadFromCache loadFromCacheRaw
    dsimp only
    rw [if_pos hexp]
  · intro wo e prev now
    cases wo with
    | ok => exact ⟨CacheFile.entry now e, rfl⟩
    | mkdirFail => exact ⟨prev, rfl⟩
    | writeFail => exact ⟨prev, rfl⟩

/-- C8, witness: a missing file reads as `none`; a failed write still returns
without error. -/
theorem C8_failSoft_witness :
    loadFromCache 5 3 CacheFile.absent = none ∧
    ∃ cf, saveToCache WriteOutcome.writeFail ⟨"s", "t", "c", 1⟩ CacheFile.absent 2 =
      Except.ok cf :=
  ⟨C8_failSoft.1 5 3 CacheFile.absent ⟨"ENOENT: no such file or directory", rfl⟩,
   C8_failSoft.2.2 WriteOutcome.writeFail ⟨"s", "t", "c", 1⟩ CacheFile.absent 2⟩

/-! ## Repository differ (`RepositoryDiffer`, src file `repository-differ.ts`) -/

/-- `RepositoryDiffer.getDiff`, given the outcome `diffResult` of
`git.diff([base, head])` (a failed `fetch` beforehand is logged and
tolerated, so it does not appear here): an empty or whitespace-only diff is
replaced by the explicit message; a thrown git error is wrapped and
rethrown. -/
def getDiff (base head : String) (diffResult : Except String String) : Except String String :=
  match diffResult with
  | Except.error e =>
    Except.error ("Failed to get diff between " ++ base ++ " and " ++ head ++ ": " ++ e)
  | Except.ok d =>
    if d = "" ∨ jsTrim d = "" then
      Except.ok ("No differences found between " ++ base ++ " and " ++ head)
    else Except.ok d

/-! ## Claim C9 -/

/-- **C9** (confirmed).  When the underlying textual diff is empty (or only
whitespace), `getDiff` returns the explicit message naming both refs, which
is never the empty string. -/
theorem C9_noDifferences (base head d : String) (hd : jsTrim d = "") :
    getDiff base head (Except.ok d) =
      Except.ok ("No differences found between " ++ base ++ " and " ++ head) ∧
    ("No differences found between " ++ base ++ " and " ++ head) ≠ "" ∧
    strOccursIn base ("No differences found between " ++ base ++ " and " ++ head) = true ∧
    strOccursIn head ("No differences found between " ++ base ++ " and " ++ head) = true := by
  refine ⟨?_, ?_, ?_, ?_⟩
  · unfold getDiff
    dsimp only
    rw [if_pos (Or.inr hd)]
  · exact str_append_ne _ (str_append_ne _ (str_append_ne _ (by decide)))
  · apply strOccursIn_append_left
    apply strOccursIn_append_left
    apply strOccursIn_append_right
    exact strOccursIn_self base
  · apply strOccursIn_append_right
    exact strOccursIn_self head

/-- C9, witness: a whitespace-only diff between `main` and `dev`. -/
theorem C9_noDifferences_witness :
    getDiff "main" "dev" (Except.ok " \n") =
      Except.ok ("No differences found between " ++ "main" ++ " and " ++ "dev") ∧
    ("No differences found between " ++ "main" ++ " and " ++ "dev") ≠ "" ∧
    strOccursIn "main" ("No differences found between " ++ "main" ++ " and " ++ "dev") = true ∧
    strOccursIn "dev" ("No differences found between " ++ "main" ++ " and " ++ "dev") = true :=
  C9_noDifferences "main" "dev" " \n" (by decide)

/-! ## Repository searcher (`RepositorySearcher`, src file `repository-searcher.ts`) -/

/-- One search hit, as in `types.ts`. -/
structure SearchResult where
  path : String
  line : Nat
  content : String
  context : List String

/-- `content.split('\n')` on character lists. -/
def splitNL : List Char → List (List Char)
  | [] => [[]]
  | c :: rest =>
    if c = '\n' then [] :: splitNL rest
    else
      match splitNL rest with
      | [] => [[c]]
      | l :: ls => (c :: l) :: ls

def splitLines (s : String) : List String :=
  (splitNL s.data).map (fun l => ⟨l⟩)

/-- The context lines of a hit at index `i`: `j` from `max(0, i-2)` to
`min(len-1, i+2)`, skipping `i`, rendered `j+1: line`. -/
def ctxFor (lines : List String) (i : Nat) : List String :=
  ((List.range lines.length).filter
    (fun j => decide (i - 2 ≤ j) && decide (j ≤ i + 2) && decide (j ≠ i))).map
    (fun j => natToString (j + 1) ++ ": " ++ lines.getD j "")

/-- The per-file line loop of `searchContent`: push a hit for each matching
line; immediately after a push that reaches `maxResults`, return early (the
`Bool` marks that early return).  The test `searchRegex.test(line)` is
abstracted by the predicate `ml`. -/
def searchLines (ml : String → Bool) (p : String) (all : List String) (maxR : Nat) :
    Nat → List String → List SearchResult → List SearchResult × Bool
  | _, [], acc => (acc, false)
  | i, l :: rest, acc =>
    if ml l then
      let acc2 := acc ++ [⟨p, i + 1, l, ctxFor all i⟩]
      if maxR ≤ acc2.length then (acc2, true)
      else searchLines ml p all maxR (i + 1) rest acc2
    else searchLines ml p all maxR (i + 1) rest acc

/-- The `processDirectory` walk of `searchContent`: skip `.git`-prefixed
names, recurse into directories, skip files over 1 MiB (whose `continue`
also skips the post-entry bound check), swallow read errors, and stop the
walk after any entry that leaves `results.length >= maxResults` (in JS the
early returns of inner calls carry no signal; the parents stop through this
same length test).  Fuel as in `walkFiles`. -/
def searchWalk (ml : String → Bool) :
    Nat → List FSEntry → String → Nat → List SearchResult → List SearchResult
  | 0, _, _, _, acc => acc
  | _ + 1, [], _, _, acc => acc
  | fuel + 1, e :: rest, rel, maxR, acc =>
    if strStartsWith e.name ".git" then searchWalk ml fuel rest rel maxR acc
    else
      match e with
      | FSEntry.dir n sub =>
        let acc2 := searchWalk ml fuel sub (joinRel rel n) maxR acc
        if maxR ≤ acc2.length then acc2
        else searchWalk ml fuel rest rel maxR acc2
      | FSEntry.file n size oc =>
        if 1048576 < size then searchWalk ml fuel rest rel maxR acc
        else
          match oc with
          | some c =>
            let acc2 := (searchLines ml (joinRel rel n) (splitLines c) maxR 0 (splitLines c) acc).1
            if maxR ≤ acc2.length then acc2
            else searchWalk ml fuel rest rel maxR acc2
          | none =>
            if maxR ≤ acc.length then acc
            else searchWalk ml fuel rest rel maxR acc

/-- `RepositorySearcher.searchContent` (the `maxResults` parameter defaults
to 10 at the call sites). -/
def searchContent (ml : String → Bool) (es : List FSEntry) (maxResults : Nat) :
    List SearchResult :=
  searchWalk ml (szList es + 1) es "" maxResults []

theorem searchLines_le (ml : String → Bool) (p : String) (all : List String) (maxR : Nat) :
    ∀ (pend : List String) (i : Nat) (acc : List SearchResult), acc.length < maxR →
      (searchLines ml p all maxR i pend acc).1.length ≤ maxR
  | [], _, acc, h => Nat.le_of_lt h
  | l :: rest, i, acc, h => by
    rw [searchLines]
    by_cases hm : ml l = true
    · rw [if_pos hm]
      dsimp only
      by_cases hle : maxR ≤ (acc ++ [(⟨p, i + 1, l, ctxFor all i⟩ : SearchResult)]).length
      · rw [if_pos hle]
        simp only [List.length_append, List.length_cons, List.length_nil]
        omega
      · rw [if_neg hle]
        exact searchLines_le ml p all maxR rest (i + 1) _ (by omega)
    · rw [if_neg hm]
      exact searchLines_le ml p all maxR rest (i + 1) acc h

theorem searchWalk_le (ml : String → Bool) :
    ∀ (fuel : Nat) (es : List FSEntry) (rel : String) (maxR : Nat)
      (acc : List SearchResult), acc.length < maxR →
      (searchWalk ml fuel es rel maxR acc).length ≤ maxR
  | 0, _, _, _, _, h => Nat.le_of_lt h
  | _ + 1, [], _, _, _, h => Nat.le_of_lt h
  | fuel + 1, e :: rest, rel, maxR, acc, h => by
    simp only [searchWalk]
    by_cases hg : strStartsWith e.name ".git" = true
    · rw [if_pos hg]
      exact searchWalk_le ml fuel rest rel maxR acc h
    · rw [if_neg hg]
      cases e with
      | dir n sub =>
        dsimp only
        have h2 := searchWalk_le ml fuel sub (joinRel rel n) maxR acc h
        by_cases hle : maxR ≤ (searchWalk ml fuel sub (joinRel rel n) maxR acc).length
        · rw [if_pos hle]
          exact h2
        · rw [if_neg hle]
          exact searchWalk_le ml fuel rest rel maxR _ (by omega)
      | file n size oc =>
        dsimp only
        by_cases hs : 1048576 < size
        · rw [if_pos hs]
          exact searchWalk_le ml fuel rest rel maxR acc h
        · rw [if_neg hs]
          cases oc with
          | some c =>
            dsimp only
            have h2 := searchLines_le ml (joinRel rel n) (splitLines c) maxR (splitLines c) 0 acc h
            by_cases hle : maxR ≤
                (searchLines ml (joinRel rel n) (splitLines c) maxR 0 (splitLines c) acc).1.length
            · rw [if_pos hle]
              exact h2
            · rw [if_neg hle]
              exact searchWalk_le ml fuel rest rel maxR _ (by omega)
          | none =>
            dsimp only
            by_cases hle : maxR ≤ acc.length
            · rw [if_pos hle]
              exact Nat.le_of_lt h
            · rw [if_neg hle]
              exact searchWalk_le ml fuel rest rel maxR acc h

theorem searchLines_nomatch (ml : String → Bool) (hml : ∀ l, ml l = false)
    (p : String) (all : List String) (maxR : Nat) :
    ∀ (pend : List String) (i : Nat) (acc : List SearchResult),
      searchLines ml p all maxR i pend acc = (acc, false)
  | [], _, _ => rfl
  | l :: rest, i, acc => by
    rw [searchLines, if_neg (by simp [hml l])]
    exact searchLines_nomatch ml hml p all maxR rest (i + 1) acc

theorem searchWalk_nomatch (ml : String → Bool) (hml : ∀ l, ml l = false) :
    ∀ (fuel : Nat) (es : List FSEntry) (rel : String) (maxR : Nat)
      (acc : List SearchResult), searchWalk ml fuel es rel maxR acc = acc
  | 0, _, _, _, _ => rfl
  | _ + 1, [], _, _, _ => rfl
  | fuel + 1, e :: rest, rel, maxR, acc => by
    simp only [searchWalk]
    by_cases hg : strStartsWith e.name ".git" = true
    · rw [if_pos hg]
      exact searchWalk_nomatch ml hml fuel rest rel maxR acc
    · rw [if_neg hg]
      cases e with
      | dir n sub =>
        dsimp only
        rw [searchWalk_nomatch ml hml fuel sub (joinRel rel n) maxR acc,
          searchWalk_nomatch ml hml fuel rest rel maxR acc, ite_self]
      | file n size oc =>
        dsimp only
        by_cases hs : 1048576 < size
        · rw [if_pos hs]
          exact searchWalk_nomatch ml hml fuel rest rel maxR acc
        · rw [if_neg hs]
          cases oc with
          | some c =>
            dsimp only
            rw [searchLines_nomatch ml hml (joinRel rel n) (splitLines c) maxR (splitLines c) 0 acc]
            dsimp only
            rw [searchWalk_nomatch ml hml fuel rest rel maxR acc, ite_self]
          | none =>
            dsimp only
            rw [searchWalk_nomatch ml hml fuel rest rel maxR acc, ite_self]

/-! ## Claim C4 -/

/-- **C4** (amended).  For every line predicate and every bound `N ≥ 1`,
`searchContent` returns at most `N` results however many lines match, and it
returns the empty list — not an error — when no line matches.  The original
"every bound N" is wrong at `N = 0` (and for the negative bounds JS also
admits): the source pushes a hit *before* testing the bound, so a single
result can be returned — see the counterexample. -/
theorem C4_searchBound (ml : String → Bool) (es : List FSEntry) (N : Nat) :
    (1 ≤ N → (searchContent ml es N).length ≤ N) ∧
    ((∀ l, ml l = false) → searchContent ml es N = []) := by
  constructor
  · intro hN
    exact searchWalk_le ml (szList es + 1) es "" N [] (by simpa using hN)
  · intro hml
    exact searchWalk_nomatch ml hml (szList es + 1) es "" N []

/-- C4, counterexample to the original claim: with `maxResults = 0` a
matching file still produces one result. -/
theorem C4_counterexample :
    (searchContent (fun l => strOccursIn "x" l) [FSEntry.file "a.txt" 1 (some "x")] 0).length
      = 1 := by
  decide

/-- C4, witness: the bound holds at `N = 2` over a file with three matching
lines, and an unmatchable predicate yields the empty list. -/
theorem C4_searchBound_witness :
    (searchContent (fun l => strOccursIn "x" l)
        [FSEntry.file "a.txt" 9 (some "x\nyx\nzx")] 2).length ≤ 2 ∧
    searchContent (fun _ => false) [FSEntry.file "a.txt" 9 (some "x\nyx\nzx")] 2 = [] :=
  ⟨(C4_searchBound (fun l => strOccursIn "x" l) [FSEntry.file "a.txt" 9 (some "x\nyx\nzx")] 2).1
      (by decide),
   (C4_searchBound (fun _ => false) [FSEntry.file "a.txt" 9 (some "x\nyx\nzx")] 2).2
      (fun _ => rfl)⟩

/-! ## GitIngester (src file `git-ingester.ts`)

The ingester's mutable fields become an explicit state record; the
structured `summary` is carried by its raw text (`parseSummary` keeps the
input in `raw`, and the metadata merge touches only fields outside the
claims).  `fetchRepoData`'s environment fixes the cache answer, the cloner
outcome, the cloned working tree and the remote-API answer; the local
analysis block is modelled as a whole (its `tree`/`count`/`content` are the
analyzer functions over the cloned entries). -/

/-- `FileContent` of `types.ts`. -/
structure FileContent where
  path : String
  content : String

/-- `url.replace('https://github.com/', '')`: remove the first occurrence of
the literal. -/
def removeFirst (pat : List Char) : List Char → List Char
  | [] => []
  | c :: rest =>
    if pat.isPrefixOf (c :: rest) then (c :: rest).drop pat.length
    else c :: removeFirst pat rest

/-- `.split('/tree/')[0]`: the prefix before the first `/tree/`. -/
def upToTree : List Char → List Char
  | [] => []
  | c :: rest =>
    if "/tree/".data.isPrefixOf (c :: rest) then [] else c :: upToTree rest

/-- `RepositoryAnalyzer.extractRepoName`. -/
def extractRepoName (url : String) : String :=
  ⟨upToTree (removeFirst "https://github.com/".data url.data)⟩

/-- The lookahead `(?=\n={50,}\nFile:|$)` of `getFilesAsObjects`' file regex:
the remaining text is empty or starts a new block header. -/
def ingLookahead : List Char → Bool
  | [] => true
  | c :: rest =>
    c = '\n' &&
      (let r := eqRun rest
       decide (50 ≤ r) && decide ((rest.drop r).take 6 = "\nFile:".data))

/-- The lazy body `([\s\S]*?)`: the shortest prefix after which the
lookahead holds (it always holds at the end of input). -/
def lazyBody : List Char → List Char
  | [] => []
  | c :: rest => if ingLookahead (c :: rest) then [] else c :: lazyBody rest

/-- The regex of `getFilesAsObjects` anchored at the start of `s`:
`={50,}\nFile: ([^\n]+)\n={50,}\n([\s\S]*?)(?=\n={50,}\nFile:|$)`.  Both
`={50,}` runs are greedy and cannot backtrack (a shorter run leaves an `=`
where `\n` is required).  Returns the match length with the name and body
captures. -/
def matchAtIng (s : List Char) : Option (Nat × List Char × List Char) :=
  let r := eqRun s
  if r < 50 then none
  else
    let s1 := s.drop r
    if s1.take 7 = "\nFile: ".data then
      let s2 := s1.drop 7
      let nm := s2.takeWhile (fun c => c ≠ '\n')
      if nm.isEmpty then none
      else
        let s3 := s2.drop nm.length
        if s3.take 1 = ['\n'] then
          let r2 := eqRun (s3.drop 1)
          if r2 < 50 then none
          else
            let s4 := (s3.drop 1).drop r2
            if s4.take 1 = ['\n'] then
              let body := lazyBody (s4.drop 1)
              some (r + 8 + nm.length + r2 + 1 + body.length, nm, body)
            else none
        else none
    else none

/-- Leftmost match of the ingester regex. -/
def findMatchIng : List Char → Option (Nat × Nat × List Char × List Char)
  | [] => none
  | c :: rest =>
    match matchAtIng (c :: rest) with
    | some (len, nm, body) => some (0, len, nm, body)
    | none => (findMatchIng rest).map (fun r => (r.1 + 1, r.2))

/-- The `exec` loop of `getFilesAsObjects`: collect `(match[1],
match[2].trim())` and continue from the end of the match.  Every match
consumes at least one character, so fuel `|s| + 1` suffices. -/
def parseObjectsIng : Nat → List Char → List FileContent
  | 0, _ => []
  | fuel + 1, s =>
    match findMatchIng s with
    | none => []
    | some (i, len, nm, body) =>
      ⟨⟨nm⟩, jsTrim ⟨body⟩⟩ :: parseObjectsIng fuel (s.drop (i + len))

/-- The mutable fields of a `GitIngester` (components other than the
analyzer play no role in the claims; `analyzer` records whether
`new RepositoryAnalyzer(...)` ever ran). -/
structure IngesterState where
  summary : Option String
  tree : Option String
  content : Option String
  analyzer : Bool
  repoPath : Option String

/-- The freshly constructed ingester. -/
def initialIngester : IngesterState :=
  ⟨none, none, none, false, none⟩

/-- Environment of one `fetchRepoData` call. -/
structure FetchEnv where
  cached : Option CacheEntry
  cloneOutcome : Except String String
  entries : List FSEntry
  remote : Except String (String × String × String)

/-- `GitIngester.fetchRepoData`: cache hit fills the three snapshot fields
and returns; otherwise clone and run the local analysis (initializing the
analyzer); if the clone fails, fall back to the remote API, which fills the
snapshot fields without touching `analyzer`/`repoPath`; a failing fallback
rethrows. -/
def fetchRepoData (env : FetchEnv) (url : String) (st : IngesterState) :
    Except String IngesterState :=
  match env.cached with
  | some e =>
    Except.ok { st with summary := some e.summary, tree := some e.tree,
                        content := some e.content }
  | none =>
    match env.cloneOutcome with
    | Except.ok rp =>
      Except.ok { st with
        repoPath := some rp,
        analyzer := true,
        tree := some (generateDirectoryTree env.entries ""),
        summary := some ("Repository: " ++ extractRepoName (extractBaseUrl url) ++
          "\nFiles analyzed: " ++ natToString (countFiles env.entries) ++
          "\nEstimated tokens: Unknown"),
        content := some (readRepositoryContent env.entries) }
    | Except.error _ =>
      match env.remote with
      | Except.ok r =>
        Except.ok { st with summary := some r.1, tree := some r.2.1,
                            content := some r.2.2 }
      | Except.error msg =>
        Except.error ("Failed to fetch repository data: " ++ msg)

/-- `GitIngester.getFilesContent`: `!this.content || !this.analyzer` guards
the extraction (`null` and the empty string are both falsy). -/
def getFilesContent (st : IngesterState) (filePaths : List String) : String :=
  match st.content with
  | none => ""
  | some c =>
    if c = "" then ""
    else if st.analyzer then extractFilesContent c filePaths
    else ""

/-- `GitIngester.getFilesAsObjects`. -/
def getFilesAsObjects (st : IngesterState) (filePaths : List String) : List FileContent :=
  let str := getFilesContent st filePaths
  if str = "" then [] else parseObjectsIng (str.data.length + 1) str.data

theorem getFilesContent_noAnalyzer {st : IngesterState} (h : st.analyzer = false)
    (paths : List String) : getFilesContent st paths = "" := by
  unfold getFilesContent
  cases hc : st.content with
  | none => rfl
  | some c =>
    dsimp only
    by_cases hce : c = ""
    · rw [if_pos hce]
    · rw [if_neg hce, h]
      rfl

theorem getFilesAsObjects_noAnalyzer {st : IngesterState} (h : st.analyzer = false)
    (paths : List String) : getFilesAsObjects st paths = [] := by
  unfold getFilesAsObjects
  rw [getFilesContent_noAnalyzer h paths]
  rfl

/-! ## Claim C10 -/

/-- **C10** (confirmed).  After a `fetchRepoData` that served the snapshot
from the cache, or from the remote fallback after a failed clone, the
analyzer was never initialized, so `getFilesContent` returns `""` for every
requested path list and `getFilesAsObjects` returns `[]`, even though the
state's `content` field holds the populated snapshot. -/
theorem C10_uninitializedAnalyzer (env : FetchEnv) (url : String) (st : IngesterState)
    (h0 : st.analyzer = false) :
    (∀ e, env.cached = some e →
      ∃ st', fetchRepoData env url st = Except.ok st' ∧
        st'.content = some e.content ∧ st'.analyzer = false ∧
        ∀ paths, getFilesContent st' paths = "" ∧ getFilesAsObjects st' paths = []) ∧
    (∀ msg r, env.cached = none → env.cloneOutcome = Except.error msg →
      env.remote = Except.ok r →
      ∃ st', fetchRepoData env url st = Except.ok st' ∧
        st'.content = some r.2.2 ∧ st'.analyzer = false ∧
        ∀ paths, getFilesContent st' paths = "" ∧ getFilesAsObjects st' paths = []) := by
  constructor
  · intro e he
    refine ⟨⟨some e.summary, some e.tree, some e.content, st.analyzer, st.repoPath⟩,
      ?_, rfl, h0, ?_⟩
    · unfold fetchRepoData
      rw [he]
    · intro paths
      exact ⟨@getFilesContent_noAnalyzer
          ⟨some e.summary, some e.tree, some e.content, st.analyzer, st.repoPath⟩ h0 paths,
        @getFilesAsObjects_noAnalyzer
          ⟨some e.summary, some e.tree, some e.content, st.analyzer, st.repoPath⟩ h0 paths⟩
  · intro msg r hc hcl hr
    refine ⟨⟨some r.1, some r.2.1, some r.2.2, st.analyzer, st.repoPath⟩,
      ?_, rfl, h0, ?_⟩
    · unfold fetchRepoData
      rw [hc, hcl, hr]
    · intro paths
      exact ⟨@getFilesContent_noAnalyzer
          ⟨some r.1, some r.2.1, some r.2.2, st.analyzer, st.repoPath⟩ h0 paths,
        @getFilesAsObjects_noAnalyzer
          ⟨some r.1, some r.2.1, some r.2.2, st.analyzer, st.repoPath⟩ h0 paths⟩

/-- C10, witness: a cache hit with populated content on a fresh ingester. -/
theorem C10_uninitializedAnalyzer_witness :
    ∃ st', fetchRepoData ⟨some ⟨"s", "t", "POPULATED", 7⟩, Except.ok "/tmp/x", [], Except.ok ("a", "b", "c")⟩
        "https://github.com/a/b" initialIngester = Except.ok st' ∧
      st'.content = some "POPULATED" ∧ st'.analyzer = false ∧
      ∀ paths, getFilesContent st' paths = "" ∧ getFilesAsObjects st' paths = [] :=
  (C10_uninitializedAnalyzer
      ⟨some ⟨"s", "t", "POPULATED", 7⟩, Except.ok "/tmp/x", [], Except.ok ("a", "b", "c")⟩
      "https://github.com/a/b" initialIngester rfl).1
    ⟨"s", "t", "POPULATED", 7⟩ rfl

end GHExplorer
